import Mathlib

/-!
# vpk_fuse: namespace tree and read engine

A shallow embedding of `src/vpk_fuse.c` and the properties proved about it.

Modelling conventions.

* A `char` is a `Char`; a `const char *` argument is the list of the bytes found at that
  address, and the functions that take one read it up to its first `NUL` (`cstr`), as
  `strlen`, `strdup` and `strcmp` do.  A `Name` stored in the tree is the contents of a C string.
* The global state `rootEntry`, `root`, `IDCount` is the record `FS`, passed explicitly.
* A `DirectoryEntry *` is the list of child indices leading from `rootEntry` to the entry
  (`Ptr`); a `Directory *` obtained as `ent->Data` is the `Ptr` of `ent`.
* `uint64`, `size_t`, `off_t`, `unsigned int` and `int` values are `Nat`/`Int` reduced
  explicitly with `%`.  String lengths and `EntryCount` are list lengths: they are bounded by
  the memory that holds them and are not reduced.
* Executions that leave defined behaviour in C end in `Except.error` with the `Fault` reached.
-/

namespace VpkFuse

/-! ## Machine integers -/

/-- Number of values of a 64-bit word (`uint64`, `size_t`). -/
def U64 : Nat := 18446744073709551616

/-- Number of values of a 32-bit word (`unsigned int`). -/
def U32 : Nat := 4294967296

/-- Conversion of an integer to `uint64`/`size_t`. -/
def toU64 (i : Int) : Nat := (i % (U64 : Int)).toNat

/-- Conversion of an integer to `int` (32-bit two's complement). -/
def toInt32 (i : Int) : Int :=
  if i % (U32 : Int) < 2147483648 then i % (U32 : Int) else i % (U32 : Int) - (U32 : Int)

/-- Conversion of an integer to `off_t`/`ssize_t` (64-bit two's complement). -/
def toInt64 (i : Int) : Int :=
  if i % (U64 : Int) < 9223372036854775808 then i % (U64 : Int) else i % (U64 : Int) - (U64 : Int)

/-- The macro `min(x, y)`, which expands to `(x<y?x:y)`. -/
def cmin (x y : Nat) : Nat := if x < y then x else y

/-! ## C strings -/

/-- The terminating byte of a C string. -/
def NUL : Char := Char.ofNat 0

/-- The contents of the C string found at an address: the bytes before the first `NUL`. -/
def cstr (s : List Char) : List Char := s.takeWhile (fun c => c != NUL)

/-- The byte `path[i]` of a C string with contents `p`, for `i ≤ strlen(path)`. -/
def charAt (p : List Char) (i : Nat) : Char := p.getD i NUL

/-! ## Data model -/

/-- The record `File`. -/
structure File where
  Size : Nat
  PreloadSize : Nat
  PreloadOffset : Nat
  ArchiveIndex : Nat
  DataSize : Nat
  DataOffset : Nat
  deriving DecidableEq, Repr

/-- The record `DirectoryEntry` together with what its `Data` points to: a `File` when
`IsDirectory` is false, otherwise a `Directory`, given by its `Entries`
(`EntryCount` is their number). -/
inductive DirectoryEntry where
  | file (Name : List Char) (ID : Nat) (Data : File)
  | dir (Name : List Char) (ID : Nat) (Entries : List DirectoryEntry)
  deriving Repr

namespace DirectoryEntry

/-- The field `IsDirectory`. -/
def IsDirectory : DirectoryEntry → Bool
  | file _ _ _ => false
  | dir _ _ _ => true

/-- The field `Name`. -/
def Name : DirectoryEntry → List Char
  | file n _ _ => n
  | dir n _ _ => n

/-- The field `ID`. -/
def ID : DirectoryEntry → Nat
  | file _ i _ => i
  | dir _ i _ => i

/-- The `Entries` of the `Directory` behind `Data`; a `File` holds none. -/
def Entries : DirectoryEntry → List DirectoryEntry
  | file _ _ _ => []
  | dir _ _ es => es

/-- The `File` behind `Data`, when the entry is not a directory. -/
def FileData : DirectoryEntry → Option File
  | file _ _ f => some f
  | dir _ _ _ => none

end DirectoryEntry

/-- The globals `rootEntry` (with `root` behind its `Data`) and `IDCount`. -/
structure FS where
  rootEntry : DirectoryEntry
  IDCount : Nat

/-- A `DirectoryEntry *`: the child indices leading from `rootEntry` to the entry. -/
abbrev Ptr := List Nat

/-- The entry a pointer designates inside the tree under `e`, if any. -/
def deref : DirectoryEntry → Ptr → Option DirectoryEntry
  | e, [] => some e
  | e, i :: is =>
    match e.Entries[i]? with
    | some c => deref c is
    | none => none

/-- The `Entries` of the `Directory` at `ent->Data`. -/
def Data (fs : FS) (ent : Ptr) : List DirectoryEntry :=
  match deref fs.rootEntry ent with
  | some e => e.Entries
  | none => []

/-- The tree under `e` after `entry` has been stored behind the last element of the
`Entries` of the directory designated by `dir`. -/
def appendAt : DirectoryEntry → Ptr → DirectoryEntry → DirectoryEntry
  | .dir n id es, [], entry => .dir n id (es ++ [entry])
  | .dir n id es, i :: is, entry =>
    match es[i]? with
    | some c => .dir n id (es.set i (appendAt c is entry))
    | none => .dir n id es
  | .file n id f, _, _ => .file n id f

/-- What ends an execution outside defined behaviour. -/
inductive Fault where
  /-- The read of `ent->IsDirectory` with `ent == nullptr` (line 193). -/
  | nullDeref
  /-- The call `AddEntryTo(ent->Data, entry)` with `ent->Data` pointing to a `File` (line 196). -/
  | fileAsDirectory
  /-- The element `vpk->ArchiveFDs[id]` read outside the table (line 379). -/
  | tableIndex
  /-- A pointer that designates no entry is dereferenced. -/
  | wildPointer
  deriving DecidableEq, Repr

/-! ## Namespace tree -/

/-- The function `GetEntryIn(dir, name)`: the index of the first entry whose name `strcmp`
finds equal to `name`, or `none` for `nullptr`. -/
def GetEntryIn (dir : List DirectoryEntry) (name : List Char) : Option Nat :=
  dir.findIdx? (fun e => decide (e.Name = name))

/-- The function `AddEntryTo(dir, entry)`, `dir` being the `Data` of the entry at `dir`: the
entry is copied behind the existing ones and its address returned. -/
def AddEntryTo (fs : FS) (dir : Ptr) (entry : DirectoryEntry) : FS × Ptr :=
  ({ fs with rootEntry := appendAt fs.rootEntry dir entry }, dir ++ [(Data fs dir).length])

/-- The function `AddDirectoryTo(dir, name)`. -/
def AddDirectoryTo (fs : FS) (dir : Ptr) (name : List Char) : FS × Ptr :=
  let id := (fs.IDCount + 1) % U64
  AddEntryTo { fs with IDCount := id } dir (.dir (cstr name) id [])

/-- The inner `for` of `GetEntryMkdirs` (line 140): `pos` advances while `pos < len`,
`path[pos] != '/'` and `path[pos] != 0`. -/
def scan (p : List Char) (pos : Nat) : Nat :=
  pos + ((p.drop pos).takeWhile (fun c => c != '/' && c != NUL)).length

/-- The `while (true)` loop of `GetEntryMkdirs` on the path contents `p`, entered with the
given `pos` and `ent`; `none` when the iterations allowed are used up. -/
def GetEntryMkdirs.loop (p : List Char) (mkdirs : Bool) :
    Nat → FS → Nat → Ptr → Option (FS × Option Ptr)
  | 0, _, _, _ => none
  | fuel + 1, fs, pos, ent =>
    if pos ≥ p.length then some (fs, some ent)
    else
      let s := pos
      let pos := scan p pos
      let last := decide (pos = p.length)
      if pos = s then GetEntryMkdirs.loop p mkdirs fuel fs (pos + 1) ent
      else
        let name := (p.drop s).take (pos - s)
        let lastEnt := ent
        match GetEntryIn (Data fs ent) name with
        | none =>
          if mkdirs then
            let r := AddDirectoryTo fs lastEnt name
            GetEntryMkdirs.loop p mkdirs fuel r.1 (pos + 1) r.2
          else some (fs, none)
        | some i =>
          let ent := ent ++ [i]
          let isDir := match deref fs.rootEntry ent with
            | some e => e.IsDirectory
            | none => false
          if !last && !isDir then some (fs, none)
          else if last then some (fs, some ent)
          else GetEntryMkdirs.loop p mkdirs fuel fs (pos + 1) ent

/-- The function `GetEntryMkdirs(path, mkdirs)`: the state afterwards and the pointer returned
(`none` for `nullptr`).  Every iteration of the loop that does not leave it advances `pos`,
so `strlen(path) + 1` iterations are allowed. -/
def GetEntryMkdirs (fs : FS) (path : List Char) (mkdirs : Bool) : FS × Option Ptr :=
  let p := cstr path
  if (charAt p 0 = '/' ∧ charAt p 1 = NUL) ∨ charAt p 0 = NUL then (fs, some [])
  else
    let pos := if charAt p 0 = '/' then 1 else 0
    (GetEntryMkdirs.loop p mkdirs (p.length + 1) fs pos []).getD (fs, none)

/-- The function `GetEntry(path)`. -/
def GetEntry (fs : FS) (path : List Char) : FS × Option Ptr :=
  GetEntryMkdirs fs path false

/-- The function `AddEntry(path, entry)`.  The two branches that only log fall through to the
dereference of `ent`. -/
def AddEntry (fs : FS) (path : List Char) (entry : DirectoryEntry) :
    Except (Fault × FS) (FS × Ptr) :=
  match GetEntryMkdirs fs path true with
  | (fs1, none) => .error (Fault.nullDeref, fs1)
  | (fs1, some ent) =>
    match deref fs1.rootEntry ent with
    | none => .error (Fault.wildPointer, fs1)
    | some (.file _ _ _) => .error (Fault.fileAsDirectory, fs1)
    | some (.dir _ _ _) => .ok (AddEntryTo fs1 ent entry)

/-- The function `AddFile(path, name, file)`. -/
def AddFile (fs : FS) (path name : List Char) (file : File) : Except (Fault × FS) (FS × Ptr) :=
  let id := (fs.IDCount + 1) % U64
  AddEntry { fs with IDCount := id } path (.file (cstr name) id file)

/-- The function `AddDirectory(path, name)`. -/
def AddDirectory (fs : FS) (path name : List Char) : Except (Fault × FS) (FS × Ptr) :=
  let id := (fs.IDCount + 1) % U64
  AddEntry { fs with IDCount := id } path (.dir (cstr name) id [])

/-- The function `InitFileSystem()`, run on the zero-initialised globals: `rootEntry.ID` and
`IDCount` keep the value 0 they have at program start. -/
def InitFileSystem : FS :=
  { rootEntry := .dir ['/'] 0 [], IDCount := 0 }

/-! ## Read engine -/

/-- The fields of the global `vpk` the read engine uses. -/
structure VPK where
  FD : Int
  ArchiveFDCount : Nat
  ArchiveFDs : List Int
  DataOffset : Nat

/-- The open regular files: the bytes behind each descriptor. -/
abbrev Files := Int → Option (List Char)

/-- One call `pread(fd, _, count, offset)`. -/
structure PreadCall where
  fd : Int
  count : Nat
  offset : Int
  deriving DecidableEq, Repr

/-- The call `pread(fd, buf, count, offset)` on a regular file: the value returned and the bytes
stored at `buf`.  It returns -1 on a descriptor that is not open and on a negative offset,
and otherwise as many of the `count` bytes as the file holds from `offset` on. -/
def pread (w : Files) (fd : Int) (count : Nat) (offset : Int) : Int × List Char :=
  match w fd with
  | none => (-1, [])
  | some data =>
    if offset < 0 then (-1, [])
    else
      let got := (data.drop offset.toNat).take count
      ((got.length : Int), got)

/-- The buffer after `bytes` have been stored from index `i` on. -/
def writeAt (buf : List Char) (i : Nat) (bytes : List Char) : List Char :=
  buf.take i ++ bytes ++ buf.drop (i + bytes.length)

/-- The function `GetVPKArchive(vpk, id)`; `none` when `ArchiveFDs[id]` lies outside the table. -/
def GetVPKArchive (vpk : VPK) (id : Nat) : Option Int :=
  if id = 0x7fff then some vpk.FD else vpk.ArchiveFDs[id]?

/-- The errno value `ENOENT`. -/
def ENOENT : Int := 2

/-- The errno value `EIO`. -/
def EIO : Int := 5

/-- The errno value `EISDIR`. -/
def EISDIR : Int := 21

/-- What a call of `vpk_read` leaves: the value returned, the output buffer and the
positioned reads issued, in order. -/
structure ReadResult where
  ret : Int
  buf : List Char
  calls : List PreadCall
  deriving DecidableEq, Repr

/-- The second pass of `vpk_read` (lines 524 to 545), entered with `pos` and the buffer and
calls of the first pass. -/
def vpk_read.data (vpk : VPK) (w : Files) (f : File) (offset : Int) (end_ pos : Nat)
    (buf : List Char) (calls : List PreadCall) : Except Fault ReadResult :=
  if (end_ + U64 - pos) % U64 > 0 ∧ f.DataSize > 0 then
    let readsize := toInt32 (cmin ((end_ + U64 - pos) % U64) f.DataSize)
    match GetVPKArchive vpk f.ArchiveIndex with
    | none => .error Fault.tableIndex
    | some fd =>
      if fd = -1 then .ok ⟨- EIO, buf, calls⟩
      else
        let off := toInt64 ((f.DataOffset + pos) % U64)
        let r := pread w fd (toU64 readsize) off
        let read := toInt32 r.1
        let buf := if r.1 < 0 then buf else writeAt buf (toU64 (pos - offset)) r.2
        let calls := calls ++ [⟨fd, toU64 readsize, off⟩]
        if read ≠ readsize then .ok ⟨- EIO, buf, calls⟩
        else
          let pos := toU64 (pos + read)
          if pos ≠ end_ then .ok ⟨- EIO, buf, calls⟩
          else .ok ⟨toInt32 (toU64 (pos - offset)), buf, calls⟩
  else if pos ≠ end_ then .ok ⟨- EIO, buf, calls⟩
  else .ok ⟨toInt32 (toU64 (pos - offset)), buf, calls⟩

/-- The part of `vpk_read` that follows `File *f = ent->Data` (lines 507 to 545). -/
def vpk_read.file (vpk : VPK) (w : Files) (f : File) (buf : List Char) (size : Nat)
    (offset : Int) : Except Fault ReadResult :=
  if toU64 offset ≥ f.Size then .ok ⟨0, buf, []⟩
  else
    let pos := toU64 offset
    let end_ := cmin ((toU64 offset + size) % U64) f.Size
    if f.PreloadSize > 0 ∧ pos < f.PreloadSize then
      let readsize := toInt32 (cmin ((end_ + U64 - pos) % U64) f.PreloadSize)
      let off := toInt64 ((f.PreloadOffset + pos) % U64)
      let r := pread w vpk.FD (toU64 readsize) off
      let read := toInt32 r.1
      let buf := if r.1 < 0 then buf else writeAt buf 0 r.2
      let calls := [PreadCall.mk vpk.FD (toU64 readsize) off]
      if read ≠ readsize then .ok ⟨- EIO, buf, calls⟩
      else vpk_read.data vpk w f offset end_ (toU64 (pos + read)) buf calls
    else vpk_read.data vpk w f offset end_ pos buf []

/-- The function `vpk_read(path, buf, size, offset, fi)`: `buf` is the output buffer on
entry, `size` a `size_t` and `offset` an `off_t`. -/
def vpk_read (fs : FS) (vpk : VPK) (w : Files) (path : List Char) (buf : List Char)
    (size : Nat) (offset : Int) : Except Fault ReadResult :=
  match GetEntry fs path with
  | (_, none) => .ok ⟨- ENOENT, buf, []⟩
  | (fs1, some ent) =>
    match deref fs1.rootEntry ent with
    | none => .error Fault.wildPointer
    | some (.dir _ _ _) => .ok ⟨- EISDIR, buf, []⟩
    | some (.file _ _ f) => vpk_read.file vpk w f buf size offset

open DirectoryEntry

/-! ## Definitions used in the proofs -/

/-- What an entry records about itself: name, identifier, kind and file record. -/
def header (e : DirectoryEntry) : List Char × Nat × Bool × Option File :=
  (e.Name, e.ID, e.IsDirectory, e.FileData)

/-- The non-empty segments of a path between its `'/'` bytes, in order, each with the flag
that no byte follows it; `acc` holds the bytes of the segment being read. -/
def tokensAux : List Char → List Char → List (List Char × Bool)
  | [], acc => if acc = [] then [] else [(acc, true)]
  | c :: cs, acc =>
    if c = '/' then
      if acc = [] then tokensAux cs [] else (acc, false) :: tokensAux cs []
    else tokensAux cs (acc ++ [c])

/-- The non-empty segments of a path, each with the flag that it ends the path. -/
def tokens (p : List Char) : List (List Char × Bool) := tokensAux p []

/-- The iterations of the loop of `GetEntryMkdirs`, one per segment. -/
def walk (mkdirs : Bool) : FS → Ptr → List (List Char × Bool) → FS × Option Ptr
  | fs, ent, [] => (fs, some ent)
  | fs, ent, (name, last) :: rest =>
    match GetEntryIn (Data fs ent) name with
    | none =>
      if mkdirs then
        let r := AddDirectoryTo fs ent name
        walk mkdirs r.1 r.2 rest
      else (fs, none)
    | some i =>
      let isDir := match deref fs.rootEntry (ent ++ [i]) with
        | some e => e.IsDirectory
        | none => false
      if !last && !isDir then (fs, none)
      else if last then (fs, some (ent ++ [i]))
      else walk mkdirs fs (ent ++ [i]) rest

/-! ## Reference resolution over path segments -/

/-- The list of non-empty `'/'`-separated segments of a path. -/
def segments (p : List Char) : List (List Char) :=
  (p.splitOn '/').filter (fun s => decide (s ≠ []))

/-- Whether the last byte of a path is `'/'`. -/
def endsWithSlash (p : List Char) : Bool := decide (p.getLast? = some '/')

/-- The reference walk over the segments of a path, starting at `e`: no segment gives `e`;
a segment absent from the children of the current directory gives NotFound (`none`); a
segment found as a File that is not the last segment gives NotFound; the entry found for
the last segment is returned whatever its kind. -/
def refWalk : DirectoryEntry → List (List Char) → Option DirectoryEntry
  | e, [] => some e
  | e, seg :: rest =>
    match e.Entries.find? (fun c => decide (c.Name = seg)) with
    | none => none
    | some c =>
      if rest = [] then some c
      else if c.IsDirectory then refWalk c rest
      else none

/-- The reference walk in which the last segment counts as last only when no `'/'`
follows it (`slash` is false): behind a trailing `'/'` a File gives NotFound. -/
def refWalkSlash (slash : Bool) : DirectoryEntry → List (List Char) → Option DirectoryEntry
  | e, [] => some e
  | e, seg :: rest =>
    match e.Entries.find? (fun c => decide (c.Name = seg)) with
    | none => none
    | some c =>
      if rest = [] ∧ slash = false then some c
      else if c.IsDirectory then refWalkSlash slash c rest
      else none

/-- The segments of a path with the flag the loop of `GetEntryMkdirs` computes for each:
true on the last segment of a path that does not end with `'/'`. -/
def mark : List (List Char) → Bool → List (List Char × Bool)
  | [], _ => []
  | s :: rest, slash => (s, decide (rest = []) && !slash) :: mark rest slash

/-- The path with every run of two or more consecutive `'/'` replaced by a single `'/'`:
a `'/'` that is followed by another `'/'` is dropped. -/
def collapse : List Char → List Char
  | [] => []
  | c :: r => if c = '/' ∧ r.head? = some '/' then collapse r else c :: collapse r

/-! ## Concrete archives used in the evaluations below -/

/-- The file record of a directory entry with one preload byte, stored at offset 36 of the
main archive, and one data byte in the data region, which starts at offset 40. -/
def fileP1D1 : File := ⟨2, 1, 36, 0x7fff, 1, 40⟩

/-- A tree holding the single file `/f.t` with the record `fileP1D1`. -/
def fsP1D1 : FS := ⟨.dir ['/'] 0 [.file "f.t".toList 1 fileP1D1], 1⟩

/-- The file record of a directory entry with two preload bytes, stored from offset 36 of
the main archive on, and one data byte in the data region, which starts at offset 41. -/
def fileP2D1 : File := ⟨3, 2, 36, 0x7fff, 1, 41⟩

/-- A tree holding the single file `/f.t` with the record `fileP2D1`. -/
def fsP2D1 : FS := ⟨.dir ['/'] 0 [.file "f.t".toList 1 fileP2D1], 1⟩

/-- The bytes of a main archive: 36 bytes of header and directory, the preload byte `P`,
three bytes that end the directory, and the data region `DX`. -/
def mainP1D1 : List Char := List.replicate 36 '.' ++ "P...DX".toList

/-- The bytes of a main archive: 36 bytes of header and directory, the preload bytes `PQ`,
three bytes that end the directory, and the data region `DXY`. -/
def mainP2D1 : List Char := List.replicate 36 '.' ++ "PQ...DXY".toList

/-- The main archive with the given bytes open as descriptor 3, and nothing else. -/
def mainOnly (bytes : List Char) : Files := fun fd => if fd = 3 then some bytes else none

/-- The pointer designates a directory of the tree. -/
def ValidDir (t : DirectoryEntry) (d : Ptr) : Prop :=
  ∃ n id es, deref t d = some (.dir n id es)

/-- Every entry of `t` is found in `t'` at the same address with the same name, identifier,
kind and file record, its children of `t` being the first of its children in `t'`. -/
def Extends (t t' : DirectoryEntry) : Prop :=
  ∀ p e, deref t p = some e →
    ∃ e', deref t' p = some e' ∧ header e' = header e ∧
      e.Entries.map header <+: e'.Entries.map header

/-- The entries of the tree, the root included, carry pairwise distinct identifiers. -/
def DistinctIDs (t : DirectoryEntry) : Prop :=
  ∀ p q e e', deref t p = some e → deref t q = some e' → e.ID = e'.ID → p = q

/-- No entry of the tree carries an identifier above `n`. -/
def IDsBelow (t : DirectoryEntry) (n : Nat) : Prop :=
  ∀ p e, deref t p = some e → e.ID ≤ n

/-- The 64-bit counter `IDCount` does not wrap during a call that takes `path`: the call
assigns at most one identifier per byte of the path, and one for the entry it inserts. -/
def Headroom (fs : FS) (path : List Char) : Prop :=
  fs.IDCount + path.length + 1 < U64

/-- One call of `AddFile`, `AddDirectory` or `GetEntryMkdirs(path, true)` that returns,
leading from `fs` to `fs'`. -/
inductive Step (fs fs' : FS) : Prop where
  | addFile (path name : List Char) (file : File) (ent : Ptr) (hr : Headroom fs path)
      (h : AddFile fs path name file = .ok (fs', ent)) : Step fs fs'
  | addDirectory (path name : List Char) (ent : Ptr) (hr : Headroom fs path)
      (h : AddDirectory fs path name = .ok (fs', ent)) : Step fs fs'
  | mkdirs (path : List Char) (hr : Headroom fs path)
      (h : (GetEntryMkdirs fs path true).1 = fs') : Step fs fs'

/-- The states reached from `InitFileSystem` by such calls. -/
inductive Reachable : FS → Prop where
  | init : Reachable InitFileSystem
  | step {fs fs' : FS} (h : Reachable fs) (s : Step fs fs') : Reachable fs'

/-- The state of the identifiers while `GetEntryMkdirs(path, true)` runs on a tree that was
`t0` when the counter was at most `base`, with `n` directories still to be created at most. -/
def IDState (t0 : DirectoryEntry) (base : Nat) (n : Nat) (s : FS) : Prop :=
  s.IDCount + n < U64 ∧ base ≤ s.IDCount ∧ Extends t0 s.rootEntry ∧
    DistinctIDs s.rootEntry ∧ IDsBelow s.rootEntry s.IDCount ∧
    ∀ p e, deref s.rootEntry p = some e → deref t0 p = none → base < e.ID

/-- The tree that `AddDirectory("/a/b", "c")` builds from the empty root. -/
def fsABC : FS :=
  ⟨.dir ['/'] 0 [.dir ['a'] 2 [.dir ['b'] 3 [.dir ['c'] 1 []]]], 3⟩

/-- The tree that `AddDirectory("/a/b", "d")` builds from the empty root. -/
def fsABD : FS :=
  ⟨.dir ['/'] 0 [.dir ['a'] 2 [.dir ['b'] 3 [.dir ['d'] 1 []]]], 3⟩

/-- The tree after `AddDirectory("/a/b", "c")` then `AddDirectory("/a/b", "d")`. -/
def fsCD : FS :=
  ⟨.dir ['/'] 0 [.dir ['a'] 2 [.dir ['b'] 3 [.dir ['c'] 1 [], .dir ['d'] 4 []]]], 4⟩

/-- The tree after `AddDirectory("/a/b", "d")` then `AddDirectory("/a/b", "c")`. -/
def fsDC : FS :=
  ⟨.dir ['/'] 0 [.dir ['a'] 2 [.dir ['b'] 3 [.dir ['d'] 1 [], .dir ['c'] 4 []]]], 4⟩

/-- The entry `GetEntry(path)` returns, if any. -/
def lookup (fs : FS) (path : List Char) : Option DirectoryEntry :=
  (GetEntry fs path).2.bind (deref (GetEntry fs path).1.rootEntry)

/-- The name and the kind of an entry. -/
def nameKind (e : DirectoryEntry) : List Char × Bool := (e.Name, e.IsDirectory)

/-! ## Directory records -/

/-- The record `VPKDirectoryEntry`: `CRC`, `EntryOffset` and `EntryLength` are
`unsigned int`, `PreloadBytes`, `ArchiveIndex` and `Terminator` are `unsigned short`. -/
structure VPKDirectoryEntry where
  CRC : Nat
  PreloadBytes : Nat
  ArchiveIndex : Nat
  EntryOffset : Nat
  EntryLength : Nat
  Terminator : Nat
  deriving DecidableEq, Repr

/-- Number of values of a 16-bit word (`unsigned short`). -/
def U16 : Nat := 65536

/-- The `File f` that `AddVPKFile` fills in (lines 385 to 392).  The sum for `Size` is
taken in `unsigned int`, the operand `PreloadBytes` being promoted to `int`. -/
def AddVPKFile.file (vpk : VPK) (dirEnt : VPKDirectoryEntry) (off : Nat) : File :=
  { Size := (dirEnt.PreloadBytes + dirEnt.EntryLength) % U32
    PreloadSize := dirEnt.PreloadBytes
    PreloadOffset := if dirEnt.PreloadBytes > 0 then off else 0
    ArchiveIndex := dirEnt.ArchiveIndex
    DataSize := dirEnt.EntryLength
    DataOffset :=
      if dirEnt.EntryLength ≠ 0 then
        ((if dirEnt.ArchiveIndex = 0x7fff then vpk.DataOffset else 0) + dirEnt.EntryOffset) % U64
      else 0 }

/-- The value of `vpk.ArchiveFDCount`, an `unsigned short`, after line 390 of `AddVPKFile`. -/
def AddVPKFile.count (vpk : VPK) (dirEnt : VPKDirectoryEntry) : Nat :=
  if dirEnt.ArchiveIndex ≠ 32767 ∧ dirEnt.ArchiveIndex ≥ vpk.ArchiveFDCount then
    (dirEnt.ArchiveIndex + 1) % U16
  else vpk.ArchiveFDCount

/-- The call `snprintf(buf, n, "%s%s%s", a, b, c)`: the bytes stored before the
terminating `NUL`, at most `n - 1`. -/
def snprintf3 (n : Nat) (a b c : List Char) : List Char :=
  (cstr a ++ cstr b ++ cstr c).take (n - 1)

/-- Whether a C string consists of one space: `s[0] == ' ' && s[1] == 0`. -/
def isSpaceMarker (s : List Char) : Bool :=
  decide (charAt (cstr s) 0 = ' ' ∧ charAt (cstr s) 1 = NUL)

/-- The function `AddVPKFile(path, fname, ext, dirEnt, off)`: the tree and `vpk` afterwards.
The pointer `fExt` is the address of a string literal or of `ext`, so the test `fExt==0`
of line 398 is false and `dot` is `"."`. -/
def AddVPKFile (fs : FS) (vpk : VPK) (path fname ext : List Char) (dirEnt : VPKDirectoryEntry)
    (off : Nat) : Except (Fault × FS) (FS × VPK) :=
  let f := AddVPKFile.file vpk dirEnt off
  let vpk1 := { vpk with ArchiveFDCount := AddVPKFile.count vpk dirEnt }
  let fPath := if isSpaceMarker path then ['/'] else path
  let fFname := if isSpaceMarker fname then [] else fname
  let fExt := if isSpaceMarker ext then [] else ext
  let dot := ['.']
  let fnbuf := snprintf3 2048 fFname dot fExt
  match AddFile fs fPath fnbuf f with
  | .error e => .error e
  | .ok r => .ok (r.1, vpk1)

/-- The value main stores in `vpk.DataOffset` (line 597) for a header with the given
`Version` and `TreeLength`: `sizeof(VPKHeader)` is 12 and `sizeof(VPK2Header)` is 16. -/
def headerDataOffset (version treeLength : Nat) : Nat :=
  (12 + (if version = 2 then 16 else 0) + treeLength) % U64

/-- The record of a file without extension: no preload bytes, 11 bytes at offset 0 of the
data region of the main archive. -/
def recPlain : VPKDirectoryEntry := ⟨0, 0, 0x7fff, 0, 11, 0xffff⟩

/-- A `vpk` with the main archive open as descriptor 3, no part known yet and the data
region at offset 40. -/
def vpk40 : VPK := ⟨3, 0, [], 40⟩

/-! ## Binary reader -/

/-- A descriptor read sequentially: the position of the cursor and the bytes of the file
from the cursor on. -/
structure Stream where
  pos : Nat
  rest : List Char
  deriving DecidableEq, Repr

/-- The call `lseek(fd, n, SEEK_CUR)` with `n ≥ 0`. -/
def Stream.skip (fd : Stream) (n : Nat) : Stream :=
  { pos := fd.pos + n, rest := fd.rest.drop n }

/-- The loop of `ReadString`, entered with the byte `c`, the bytes kept so far in `buf`
(`count` of them) and `n` bytes consumed, on the bytes from the cursor on.  At the end of
the file `read` stores nothing, so `c` keeps its value: the loop is left if it is 0 and
never otherwise (`none`). -/
def ReadString.loop : List Char → Char → List Char → Nat → Option (List Char × Nat)
  | [], c, buf, n => if c = NUL then some (buf, n) else none
  | x :: rest, _, buf, n =>
    if x = NUL then some (buf, n + 1)
    else ReadString.loop rest x (if buf.length < 512 then buf ++ [x] else buf) (n + 1)

/-- The function `ReadString(fd)`: the string returned and the descriptor afterwards;
`none` when the call never returns. -/
def ReadString (fd : Stream) : Option (List Char × Stream) :=
  match ReadString.loop fd.rest NUL [] 0 with
  | none => none
  | some (str, n) => some (str, fd.skip n)

/-- The value of an unsigned integer stored in little-endian order, the byte order of the
machine. -/
def littleEndian : List Char → Nat
  | [] => 0
  | b :: bs => b.toNat % 256 + 256 * littleEndian bs

/-- The call `read(fd, &i, n)` on an integer `i` of `n` bytes: the value of `i` and the
descriptor afterwards; `none` when the file ends before `n` bytes, which leaves `i`
indeterminate. -/
def readUnsigned (n : Nat) (fd : Stream) : Option (Nat × Stream) :=
  if n ≤ fd.rest.length then some (littleEndian (fd.rest.take n), fd.skip n) else none

/-- The function `ReadUInt(fd)`. -/
def ReadUInt (fd : Stream) : Option (Nat × Stream) := readUnsigned 4 fd

/-- The function `ReadUShort(fd)`. -/
def ReadUShort (fd : Stream) : Option (Nat × Stream) := readUnsigned 2 fd

/-- The function `ReadDirectoryEntry(fd, ent)`. -/
def ReadDirectoryEntry (fd : Stream) : Option (VPKDirectoryEntry × Stream) :=
  match ReadUInt fd with
  | none => none
  | some (crc, fd1) =>
    match ReadUShort fd1 with
    | none => none
    | some (preload, fd2) =>
      match ReadUShort fd2 with
      | none => none
      | some (index, fd3) =>
        match ReadUInt fd3 with
        | none => none
        | some (offset, fd4) =>
          match ReadUInt fd4 with
          | none => none
          | some (length, fd5) =>
            match ReadUShort fd5 with
            | none => none
            | some (terminator, fd6) => some (⟨crc, preload, index, offset, length, terminator⟩, fd6)

/-! ## Archive directory parser -/

/-- What ends a run of the parser other than its return. -/
inductive ParseStop where
  /-- A call of `ReadString` never returns. -/
  | spin
  /-- The file ends inside a directory record, whose fields are then indeterminate. -/
  | shortRead
  /-- A call of `AddVPKFile` leaves defined behaviour. -/
  | fault (f : Fault) (fs : FS)
  /-- The iterations allowed are used up. -/
  | fuel

/-- The innermost loop of `ReadDirectory` (lines 417 to 429), `n` iterations allowed. -/
def ReadDirectory.files (extension path : List Char) :
    Nat → FS → VPK → Stream → Except ParseStop (FS × VPK × Stream)
  | 0, _, _, _ => .error ParseStop.fuel
  | n + 1, fs, vpk, fd =>
    match ReadString fd with
    | none => .error ParseStop.spin
    | some (fname, fd1) =>
      if charAt fname 0 = NUL then .ok (fs, vpk, fd1)
      else
        match ReadDirectoryEntry fd1 with
        | none => .error ParseStop.shortRead
        | some (dirEnt, fd2) =>
          match AddVPKFile fs vpk path fname extension dirEnt fd2.pos with
          | .error e => .error (ParseStop.fault e.1 e.2)
          | .ok (fs1, vpk1) =>
            let fd3 := if dirEnt.PreloadBytes > 0 then fd2.skip dirEnt.PreloadBytes else fd2
            ReadDirectory.files extension path n fs1 vpk1 fd3

/-- The middle loop of `ReadDirectory` (lines 411 to 431), `n` iterations allowed. -/
def ReadDirectory.paths (extension : List Char) :
    Nat → FS → VPK → Stream → Except ParseStop (FS × VPK × Stream)
  | 0, _, _, _ => .error ParseStop.fuel
  | n + 1, fs, vpk, fd =>
    match ReadString fd with
    | none => .error ParseStop.spin
    | some (path, fd1) =>
      if charAt path 0 = NUL then .ok (fs, vpk, fd1)
      else
        match ReadDirectory.files extension path n fs vpk fd1 with
        | .error e => .error e
        | .ok (fs1, vpk1, fd2) => ReadDirectory.paths extension n fs1 vpk1 fd2

/-- The outer loop of `ReadDirectory` (lines 405 to 433), `n` iterations allowed. -/
def ReadDirectory.extensions :
    Nat → FS → VPK → Stream → Except ParseStop (FS × VPK × Stream)
  | 0, _, _, _ => .error ParseStop.fuel
  | n + 1, fs, vpk, fd =>
    match ReadString fd with
    | none => .error ParseStop.spin
    | some (extension, fd1) =>
      if charAt extension 0 = NUL then .ok (fs, vpk, fd1)
      else
        match ReadDirectory.paths extension n fs vpk fd1 with
        | .error e => .error e
        | .ok (fs1, vpk1, fd2) => ReadDirectory.extensions n fs1 vpk1 fd2

/-- The function `ReadDirectory(fd)`: the tree, `vpk` and the descriptor afterwards.  Every
iteration of a loop that does not leave it consumes a byte, so each loop is allowed one
iteration more than the file has bytes from the cursor on. -/
def ReadDirectory (fs : FS) (vpk : VPK) (fd : Stream) : Except ParseStop (FS × VPK × Stream) :=
  ReadDirectory.extensions (fd.rest.length + 1) fs vpk fd

/-! ## Encoded directory sections -/

/-- A leaf of a directory section: the filename, the 18 bytes of its record and the
preload bytes stored inline behind the record. -/
structure Leaf where
  fname : List Char
  record : List Char
  preload : List Char

/-- A path with its leaves. -/
structure PathGroup where
  path : List Char
  leaves : List Leaf

/-- An extension with its path groups. -/
structure ExtGroup where
  extension : List Char
  paths : List PathGroup

/-- The directory record held by 18 bytes: `CRC` (4 bytes), `PreloadBytes` (2),
`ArchiveIndex` (2), `EntryOffset` (4), `EntryLength` (4) and `Terminator` (2). -/
def decodeRecord (bs : List Char) : VPKDirectoryEntry :=
  ⟨littleEndian (bs.take 4), littleEndian ((bs.drop 4).take 2),
    littleEndian ((bs.drop 6).take 2), littleEndian ((bs.drop 8).take 4),
    littleEndian ((bs.drop 12).take 4), littleEndian ((bs.drop 16).take 2)⟩

/-- The bytes of the leaves of a path group and of the empty string that closes them. -/
def encLeaves : List Leaf → List Char
  | [] => [NUL]
  | l :: ls => l.fname ++ NUL :: (l.record ++ (l.preload ++ encLeaves ls))

/-- The bytes of the path groups of an extension and of the empty string that closes them. -/
def encPaths : List PathGroup → List Char
  | [] => [NUL]
  | g :: gs => g.path ++ NUL :: (encLeaves g.leaves ++ encPaths gs)

/-- The bytes of a directory section: the extension groups and the empty string that
closes them. -/
def encExts : List ExtGroup → List Char
  | [] => [NUL]
  | g :: gs => g.extension ++ NUL :: (encPaths g.paths ++ encExts gs)

/-- A string of a directory section: not empty, without zero byte, of at most 512 bytes. -/
def WFString (s : List Char) : Prop :=
  s ≠ [] ∧ (∀ c ∈ s, c ≠ NUL) ∧ s.length ≤ 512

/-- A leaf with a filename, a record of 18 bytes and as many preload bytes as the record
says. -/
def Leaf.WF (l : Leaf) : Prop :=
  WFString l.fname ∧ l.record.length = 18 ∧
    l.preload.length = (decodeRecord l.record).PreloadBytes

/-- A path group with a path and well-formed leaves. -/
def PathGroup.WF (g : PathGroup) : Prop :=
  WFString g.path ∧ ∀ l ∈ g.leaves, l.WF

/-- An extension group with an extension and well-formed path groups. -/
def ExtGroup.WF (g : ExtGroup) : Prop :=
  WFString g.extension ∧ ∀ p ∈ g.paths, p.WF

/-- The arguments of one call of `AddVPKFile`. -/
structure Call where
  path : List Char
  fname : List Char
  extension : List Char
  dirEnt : VPKDirectoryEntry
  off : Nat
  deriving DecidableEq, Repr

/-- The calls for the leaves of a path group whose first leaf starts at `pos`: the offset
passed is the position behind the record of the leaf. -/
def leafCalls (extension path : List Char) : Nat → List Leaf → List Call
  | _, [] => []
  | pos, l :: ls =>
    ⟨path, l.fname, extension, decodeRecord l.record, pos + (l.fname.length + 1) + 18⟩ ::
      leafCalls extension path (pos + (l.fname.length + 1) + 18 + l.preload.length) ls

/-- The calls for the path groups of an extension, the first of which starts at `pos`. -/
def pathCalls (extension : List Char) : Nat → List PathGroup → List Call
  | _, [] => []
  | pos, g :: gs =>
    leafCalls extension g.path (pos + (g.path.length + 1)) g.leaves ++
      pathCalls extension (pos + (g.path.length + 1) + (encLeaves g.leaves).length) gs

/-- The calls for a directory section that starts at `pos`, in the order of the encoding. -/
def extCalls : Nat → List ExtGroup → List Call
  | _, [] => []
  | pos, g :: gs =>
    pathCalls g.extension (pos + (g.extension.length + 1)) g.paths ++
      extCalls (pos + (g.extension.length + 1) + (encPaths g.paths).length) gs

/-- The calls of `AddVPKFile` made one after the other, up to the first that leaves defined
behaviour. -/
def runCalls : FS → VPK → List Call → Except (Fault × FS) (FS × VPK)
  | fs, vpk, [] => .ok (fs, vpk)
  | fs, vpk, c :: cs =>
    match AddVPKFile fs vpk c.path c.fname c.extension c.dirEnt c.off with
    | .error e => .error e
    | .ok (fs1, vpk1) => runCalls fs1 vpk1 cs

/-- The result of a run of the parser that made the given calls and left the descriptor
as `fd`. -/
def parsed (r : Except (Fault × FS) (FS × VPK)) (fd : Stream) :
    Except ParseStop (FS × VPK × Stream) :=
  match r with
  | .error e => .error (ParseStop.fault e.1 e.2)
  | .ok (fs, vpk) => .ok (fs, vpk, fd)

/-- The directory section of the example archive: the file `readme` with the extension `txt`
in the path `docs`, with a record without preload bytes that places 11 bytes at offset 0
of the data region of the main archive. -/
def exampleGroups : List ExtGroup :=
  [⟨"txt".toList,
    [⟨"docs".toList,
      [⟨"readme".toList,
        [Char.ofNat 0, Char.ofNat 0, Char.ofNat 0, Char.ofNat 0, Char.ofNat 0, Char.ofNat 0,
          Char.ofNat 255, Char.ofNat 127, Char.ofNat 0, Char.ofNat 0, Char.ofNat 0,
          Char.ofNat 0, Char.ofNat 11, Char.ofNat 0, Char.ofNat 0, Char.ofNat 0,
          Char.ofNat 255, Char.ofNat 255], []⟩]⟩]⟩]

/-! ## Archive parts -/

/-- The fields of the global `vpk` that name the archive: the directory of the main archive
(with its closing slash), the length stored for it, and the base filename. -/
structure ArchiveName where
  Path : List Char
  PathLen : Nat
  FileName : List Char

/-- The call `strstr(haystack, needle)`: the offset of the first occurrence, if any. -/
def strstr : List Char → List Char → Option Nat
  | [], n => if n = [] then some 0 else none
  | c :: t, n => if n.isPrefixOf (c :: t) then some 0 else (strstr t n).map (· + 1)

/-- The conversion `%d` of a number that is not negative. -/
def decimal (n : Nat) : List Char := Nat.toDigits 10 n

/-- The conversions `%03d` and `%02d`: zeros in front up to the width `w`. -/
def padZero (w : Nat) (digits : List Char) : List Char :=
  List.replicate (w - digits.length) '0' ++ digits

/-- The call `snprintf(fname, n, "%s%s<number>%s", a, b, number, c)` with the number already
converted: at most `n - 1` bytes are stored. -/
def snprintf4 (n : Nat) (a b number c : List Char) : List Char :=
  (a ++ b ++ number ++ c).take (n - 1)

/-- The function `OpenVPKArchive(vpk, id)`, lines 315 to 364, over `openf`, the descriptor
that `open(name, O_RDONLY)` returns for each name (-1 when it fails): the value returned and
the names handed to `open`, in order. -/
def OpenVPKArchive (v : ArchiveName) (openf : List Char → Int) (id : Nat) :
    Int × List (List Char) :=
  match strstr v.FileName "dir".toList with
  | none => (-1, [])
  | some diroff =>
    let pre := v.FileName.take diroff
    let suffix := v.FileName.drop (diroff + 3)
    let fnameLen := v.PathLen + pre.length + 3 + suffix.length + 1
    let name1 := snprintf4 fnameLen v.Path pre (padZero 3 (decimal (id % 1000))) suffix
    if openf name1 ≠ -1 then (openf name1, [name1])
    else
      let name2 := snprintf4 fnameLen v.Path pre (padZero 2 (decimal (id % 100))) suffix
      if openf name2 ≠ -1 then (openf name2, [name1, name2])
      else
        let name3 := snprintf4 fnameLen v.Path pre (decimal id) suffix
        if openf name3 ≠ -1 then (openf name3, [name1, name2, name3])
        else (-1, [name1, name2, name3])

/-- The loop of `OpenAllVPKArchives`: `k` parts are still to open, `i` is the next index and
`table` holds the entries of `ArchiveFDs` stored so far. -/
def OpenAllVPKArchives.loop (v : ArchiveName) (openf : List Char → Int) :
    Nat → Nat → List Int → Nat × List Int
  | 0, _, table => (0x7fff, table)
  | k + 1, i, table =>
    let fd := (OpenVPKArchive v openf i).1
    if fd = -1 then (i, table ++ [fd])
    else OpenAllVPKArchives.loop v openf k (i + 1) (table ++ [fd])

/-- The function `OpenAllVPKArchives(vpk)`: the value returned and `vpk` with the table of
`ArchiveFDCount` entries, filled as far as the loop came. -/
def OpenAllVPKArchives (v : ArchiveName) (openf : List Char → Int) (vpk : VPK) : Nat × VPK :=
  let r := OpenAllVPKArchives.loop v openf vpk.ArchiveFDCount 0 []
  (r.1, { vpk with ArchiveFDs := r.2 })

/-- The descriptor of the first name of the list that opens, and the names tried. -/
def firstOpen (openf : List Char → Int) : List (List Char) → Int × List (List Char)
  | [] => (-1, [])
  | name :: rest =>
    if openf name ≠ -1 then (openf name, [name])
    else ((firstOpen openf rest).1, name :: (firstOpen openf rest).2)

/-- The three part names as the specification words them: the directory, then the filename
with `dir` replaced by the numeral of `i` padded to three digits, padded to two digits,
and unpadded. -/
def candidatesSpec (v : ArchiveName) (diroff i : Nat) : List (List Char) :=
  [v.Path ++ v.FileName.take diroff ++ padZero 3 (decimal i) ++ v.FileName.drop (diroff + 3),
   v.Path ++ v.FileName.take diroff ++ padZero 2 (decimal i) ++ v.FileName.drop (diroff + 3),
   v.Path ++ v.FileName.take diroff ++ decimal i ++ v.FileName.drop (diroff + 3)]

/-- The three part names with the remainders the code formats. -/
def candidatesCode (v : ArchiveName) (diroff i : Nat) : List (List Char) :=
  [v.Path ++ v.FileName.take diroff ++ padZero 3 (decimal (i % 1000)) ++
      v.FileName.drop (diroff + 3),
   v.Path ++ v.FileName.take diroff ++ padZero 2 (decimal (i % 100)) ++
      v.FileName.drop (diroff + 3),
   v.Path ++ v.FileName.take diroff ++ decimal i ++ v.FileName.drop (diroff + 3)]

/-- The archive `/g/pak01_dir.vpk`. -/
def pak01 : ArchiveName := ⟨"/g/".toList, 3, "pak01_dir.vpk".toList⟩

/-- Only the part `/g/pak01_23.vpk` exists; it opens as descriptor 7. -/
def only23 (name : List Char) : Int := if name = "/g/pak01_23.vpk".toList then 7 else -1

/-- Only the part `/g/pak01_007.vpk` exists; it opens as descriptor 7. -/
def only007 (name : List Char) : Int := if name = "/g/pak01_007.vpk".toList then 7 else -1

/-- A record of 4 bytes in the part with the index 0xFFFF. -/
def recLastIndex : VPKDirectoryEntry := ⟨0, 0, 65535, 0, 4, 0xffff⟩

/-- The tree with the one file `/a.b` whose data lies in the part with the index 0xFFFF. -/
def fsLastIndex : FS :=
  ⟨.dir "/".toList 0 [.file "a.b".toList 1 ⟨4, 0, 0, 65535, 4, 0⟩], 1⟩

/-- One call that returns, leading from `fs` to `fs'`: `AddFile(path, name, file)`,
`AddDirectory(path, name)` or `GetEntryMkdirs(path, true)`. -/
inductive Insertion (fs fs' : FS) : Prop where
  | addFile (path name : List Char) (file : File) (ent : Ptr)
      (h : AddFile fs path name file = .ok (fs', ent)) : Insertion fs fs'
  | addDirectory (path name : List Char) (ent : Ptr)
      (h : AddDirectory fs path name = .ok (fs', ent)) : Insertion fs fs'
  | mkdirs (path : List Char) (o : Option Ptr)
      (h : GetEntryMkdirs fs path true = (fs', o)) : Insertion fs fs'

/-- The tree of `fsLastIndex` after `AddDirectory("/x", "y")`. -/
def fsLastIndexXY : FS :=
  ⟨.dir "/".toList 0 [.file "a.b".toList 1 ⟨4, 0, 0, 65535, 4, 0⟩,
    .dir "x".toList 3 [.dir "y".toList 2 []]], 3⟩

/-! ## Start of the program and directory listing -/

/-- The record `VPKHeader`. -/
structure VPKHeader where
  Signature : Nat
  Version : Nat
  TreeLength : Nat
  deriving DecidableEq, Repr

/-- The function `ReadVPKHeader(fd, hdr)`. -/
def ReadVPKHeader (fd : Stream) : Option (VPKHeader × Stream) :=
  match ReadUInt fd with
  | none => none
  | some (signature, fd1) =>
    match ReadUInt fd1 with
    | none => none
    | some (version, fd2) =>
      match ReadUInt fd2 with
      | none => none
      | some (treeLength, fd3) => some (⟨signature, version, treeLength⟩, fd3)

/-- The function `ReadVPK2Header(fd, hdr)`: four reads of four bytes; no field of the
record is used afterwards, so only the descriptor is kept. -/
def ReadVPK2Header (fd : Stream) : Option Stream :=
  match readUnsigned 4 fd with
  | none => none
  | some (_, fd1) =>
    match readUnsigned 4 fd1 with
    | none => none
    | some (_, fd2) =>
      match readUnsigned 4 fd2 with
      | none => none
      | some (_, fd3) =>
        match readUnsigned 4 fd3 with
        | none => none
        | some (_, fd4) => some fd4

/-- The constant `VPKSig`. -/
def VPKSig : Nat := 0x55aa1234

/-- How the part of `main` between the opening of the archive and `OpenAllVPKArchives`
ends. -/
inductive Startup where
  /-- The function `main` returns the given code. -/
  | exit (code : Nat)
  /-- The header or the directory cannot be read to the end. -/
  | stop (s : ParseStop)
  /-- The directory has been read: the tree, `vpk` and the descriptor of the archive. -/
  | loaded (fs : FS) (vpk : VPK) (fd : Stream)

/-- Lines 583 to 600 of `main`: the header is read and checked, `vpk.DataOffset` set, the
tree initialised and the directory read, from the descriptor `fd` of the main archive. -/
def main.load (vpk : VPK) (fd : Stream) : Startup :=
  match ReadVPKHeader fd with
  | none => .stop ParseStop.shortRead
  | some (hdr, fd1) =>
    if hdr.Signature ≠ VPKSig then .exit 200
    else if hdr.Version < 1 ∨ hdr.Version > 2 then .exit 201
    else
      match (if hdr.Version = 2 then ReadVPK2Header fd1 else some fd1) with
      | none => .stop ParseStop.shortRead
      | some fd2 =>
        let vpk1 := { vpk with DataOffset := headerDataOffset hdr.Version hdr.TreeLength }
        match ReadDirectory InitFileSystem vpk1 fd2 with
        | .error e => .stop e
        | .ok (fs, vpk2, fd3) => .loaded fs vpk2 fd3

/-- The errno value `ENOTDIR`. -/
def ENOTDIR : Int := 20

/-- The file type bits `S_IFDIR`. -/
def S_IFDIR : Nat := 0o040000

/-- The file type bits `S_IFREG`. -/
def S_IFREG : Nat := 0o100000

/-- One call `filler(buf, name, stbuf, 0)`: the name, and `st_ino` and `st_mode` of the
`struct stat` passed, if one is. -/
structure FillerCall where
  name : List Char
  stat : Option (Nat × Nat)
  deriving DecidableEq, Repr

/-- The function `vpk_readdir(path, buf, filler, offset, fi)`: the value returned and the
calls of `filler`, in order. -/
def vpk_readdir (fs : FS) (path : List Char) : Except Fault (Int × List FillerCall) :=
  match GetEntry fs path with
  | (_, none) => .ok (- ENOENT, [])
  | (fs1, some ent) =>
    match deref fs1.rootEntry ent with
    | none => .error Fault.wildPointer
    | some (.file _ _ _) => .ok (- ENOTDIR, [])
    | some (.dir _ _ es) =>
      .ok (0, ⟨['.'], none⟩ :: ⟨['.', '.'], none⟩ ::
        es.map (fun c => ⟨c.Name, some (c.ID, 555 ||| (if c.IsDirectory then S_IFDIR else S_IFREG))⟩))

/-- A directory section with one leaf. -/
def oneLeaf (e p n record : List Char) : List ExtGroup := [⟨e, [⟨p, [⟨n, record, []⟩]⟩]⟩]

/-- A version-1 header with the given bytes of `TreeLength`. -/
def headerV1 (tl : List Char) : List Char :=
  [Char.ofNat 0x34, Char.ofNat 0x12, Char.ofNat 0xaa, Char.ofNat 0x55,
    Char.ofNat 1, Char.ofNat 0, Char.ofNat 0, Char.ofNat 0] ++ tl

/-- The bytes of a record without preload bytes that places `L` bytes, `L < 256`, at
offset 0 of the data region of the main archive. -/
def recordMain (L : Nat) : List Char :=
  [Char.ofNat 0, Char.ofNat 0, Char.ofNat 0, Char.ofNat 0, Char.ofNat 0, Char.ofNat 0,
    Char.ofNat 255, Char.ofNat 127, Char.ofNat 0, Char.ofNat 0, Char.ofNat 0,
    Char.ofNat 0, Char.ofNat L, Char.ofNat 0, Char.ofNat 0, Char.ofNat 0,
    Char.ofNat 255, Char.ofNat 255]

/-- The example archive: a version-1 header, the directory section of 37 bytes with the
leaf `txt`, `docs`, `readme`, and the data region `hello world`. -/
def exampleArchive : List Char :=
  headerV1 [Char.ofNat 37, Char.ofNat 0, Char.ofNat 0, Char.ofNat 0] ++
    encExts (oneLeaf "txt".toList "docs".toList "readme".toList (recordMain 11)) ++
    "hello world".toList

/-- The example archive with the path `a/b` in place of `docs`. -/
def archiveAB : List Char :=
  headerV1 [Char.ofNat 36, Char.ofNat 0, Char.ofNat 0, Char.ofNat 0] ++
    encExts (oneLeaf "txt".toList "a/b".toList "readme".toList (recordMain 11)) ++
    "hello world".toList

/-- The tree read from `archiveAB`. -/
def fsAB : FS :=
  ⟨.dir ['/'] 0 [.dir ['a'] 2 [.dir ['b'] 3
    [.file "readme.txt".toList 1 ⟨11, 0, 0, 0x7fff, 11, 48⟩]]], 3⟩

/-- The bytes of the signature 0x55aa1234. -/
def sigBytes : List Char := [Char.ofNat 0x34, Char.ofNat 0x12, Char.ofNat 0xaa, Char.ofNat 0x55]

/-- The bytes of the version 1. -/
def version1 : List Char := [Char.ofNat 1, Char.ofNat 0, Char.ofNat 0, Char.ofNat 0]

/-- The bytes of the tree length 37. -/
def length37 : List Char := [Char.ofNat 37, Char.ofNat 0, Char.ofNat 0, Char.ofNat 0]

/-- A `vpk` with the main archive open as descriptor 3 and nothing else set. -/
def vpk0 : VPK := ⟨3, 0, [], 0⟩

/-- A directory section of three leaves with the extension `t`: `f` in the path `d`, then
`g` in the path `d/f.t`, then `h` in the path `e`; each record places 11 bytes in the data
region of the main archive and no preload bytes follow. -/
def gsThroughFile : List ExtGroup :=
  [⟨"t".toList,
    [⟨"d".toList, [⟨"f".toList, recordMain 11, []⟩]⟩,
     ⟨"d/f.t".toList, [⟨"g".toList, recordMain 11, []⟩]⟩,
     ⟨"e".toList, [⟨"h".toList, recordMain 11, []⟩]⟩]⟩]

/-- The tree after the first leaf of `gsThroughFile`. -/
def fsFirstLeaf : FS :=
  ⟨.dir ['/'] 0 [.dir "d".toList 2 [.file "f.t".toList 1 ⟨11, 0, 0, 0x7fff, 11, 40⟩]], 2⟩

/-! ## Theorems -/

theorem set_of_getElem? {α : Type} {l : List α} {j : Nat} {a : α} (h : l[j]? = some a) :
    l.set j a = l := by
  apply List.ext_getElem?
  intro i
  rw [List.getElem?_set]
  split
  · next hij =>
    subst hij
    have hlt : j < l.length := (List.getElem?_eq_some_iff.mp h).1
    simp [h, hlt]
  · rfl

theorem deref_nil (t : DirectoryEntry) : deref t [] = some t := rfl

theorem deref_cons (t : DirectoryEntry) (i : Nat) (q : Ptr) :
    deref t (i :: q) = (t.Entries[i]?).bind (fun c => deref c q) := by
  simp only [deref]
  cases t.Entries[i]? <;> rfl

theorem deref_append (t : DirectoryEntry) (p q : Ptr) :
    deref t (p ++ q) = (deref t p).bind (fun e => deref e q) := by
  induction p generalizing t with
  | nil => simp [deref_nil]
  | cons i p ih =>
    simp only [List.cons_append, deref_cons]
    cases h : t.Entries[i]? with
    | none => simp
    | some c => simp [ih]

theorem header_appendAt (t : DirectoryEntry) (d : Ptr) (c : DirectoryEntry) :
    header (appendAt t d c) = header t := by
  cases t with
  | file n id f => cases d <;> rfl
  | dir n id es =>
    cases d with
    | nil => rfl
    | cons j d' =>
      simp only [appendAt]
      cases es[j]? <;> rfl

theorem deref_appendAt_old (c : DirectoryEntry) :
    ∀ (d : Ptr) (t : DirectoryEntry) (p : Ptr) (e : DirectoryEntry), deref t p = some e →
      ∃ e', deref (appendAt t d c) p = some e' ∧ header e' = header e ∧
        e'.Entries.map header =
          e.Entries.map header ++ (if p = d ∧ e.IsDirectory = true then [header c] else []) := by
  intro d
  induction d with
  | nil =>
    intro t p e h
    cases t with
    | file n id f =>
      cases p with
      | nil =>
        simp only [deref_nil, Option.some.injEq] at h
        subst h
        exact ⟨_, rfl, rfl, by simp [appendAt, Entries, IsDirectory]⟩
      | cons i q => simp [deref_cons, Entries] at h
    | dir n id es =>
      cases p with
      | nil =>
        simp only [deref_nil, Option.some.injEq] at h
        subst h
        exact ⟨_, rfl, rfl, by simp [appendAt, Entries, IsDirectory]⟩
      | cons i q =>
        refine ⟨e, ?_, rfl, by simp⟩
        simp only [deref_cons, Entries, appendAt] at h ⊢
        cases hi : es[i]? with
        | none => simp [hi] at h
        | some ch =>
          have hlt : i < es.length := by
            rcases List.getElem?_eq_some_iff.mp hi with ⟨hlt, _⟩
            exact hlt
          rw [List.getElem?_append_left hlt, hi]
          simpa [hi] using h
  | cons j d' ih =>
    intro t p e h
    cases t with
    | file n id f =>
      cases p with
      | nil =>
        simp only [deref_nil, Option.some.injEq] at h
        subst h
        exact ⟨_, rfl, rfl, by simp [appendAt, Entries, IsDirectory]⟩
      | cons i q => simp [deref_cons, Entries] at h
    | dir n id es =>
      cases hj : es[j]? with
      | none =>
        have happ : appendAt (dir n id es) (j :: d') c = dir n id es := by
          simp [appendAt, hj]
        rw [happ]
        refine ⟨e, h, rfl, ?_⟩
        have : ¬ (p = j :: d') := by
          intro hp
          subst hp
          simp [deref_cons, Entries, hj] at h
        simp [this]
      | some ch =>
        have happ : appendAt (dir n id es) (j :: d') c =
            dir n id (es.set j (appendAt ch d' c)) := by
          simp [appendAt, hj]
        rw [happ]
        have hlt : j < es.length := (List.getElem?_eq_some_iff.mp hj).1
        cases p with
        | nil =>
          simp only [deref_nil, Option.some.injEq] at h
          subst h
          refine ⟨_, rfl, rfl, ?_⟩
          simp only [Entries, List.nil_eq, reduceCtorEq, false_and, if_false, List.append_nil]
          rw [List.map_set, header_appendAt]
          exact set_of_getElem? (by simp [hj])
        | cons i q =>
          simp only [deref_cons, Entries] at h ⊢
          by_cases hij : i = j
          · subst hij
            rw [hj] at h
            change deref ch q = some e at h
            obtain ⟨e', h1, h2, h3⟩ := ih ch q e h
            refine ⟨e', ?_, h2, ?_⟩
            · simp [hlt, h1]
            · simpa using h3
          · refine ⟨e, ?_, rfl, ?_⟩
            · rw [List.getElem?_set_ne (Ne.symm hij)]
              exact h
            · have hne : ¬ (i :: q = j :: d') := fun hh => hij (List.cons.inj hh).1
              rw [if_neg (fun hh => hne hh.1), List.append_nil]

theorem deref_appendAt_new (c : DirectoryEntry) :
    ∀ (d : Ptr) (t : DirectoryEntry) (p : Ptr) (e' : DirectoryEntry),
      deref (appendAt t d c) p = some e' →
      (∃ e, deref t p = some e ∧ header e' = header e) ∨
      (∃ q n id es, p = d ++ es.length :: q ∧ deref c q = some e' ∧
        deref t d = some (.dir n id es)) := by
  intro d
  induction d with
  | nil =>
    intro t p e' h
    cases t with
    | file n id f => exact Or.inl ⟨e', by simpa [appendAt] using h, rfl⟩
    | dir n id es =>
      cases p with
      | nil =>
        simp only [deref_nil, Option.some.injEq] at h
        subst h
        exact Or.inl ⟨_, rfl, rfl⟩
      | cons i q =>
        simp only [deref_cons, Entries, appendAt] at h
        rcases Nat.lt_trichotomy i es.length with hlt | heq | hgt
        · rw [List.getElem?_append_left hlt] at h
          exact Or.inl ⟨e', by simpa [deref_cons, Entries] using h, rfl⟩
        · subst heq
          simp only [List.getElem?_concat_length] at h
          exact Or.inr ⟨q, n, id, es, rfl, h, rfl⟩
        · rw [List.getElem?_eq_none (by simp; omega)] at h
          simp at h
  | cons j d' ih =>
    intro t p e' h
    cases t with
    | file n id f => exact Or.inl ⟨e', by simpa [appendAt] using h, rfl⟩
    | dir n id es =>
      cases hj : es[j]? with
      | none =>
        have happ : appendAt (dir n id es) (j :: d') c = dir n id es := by
          simp [appendAt, hj]
        rw [happ] at h
        exact Or.inl ⟨e', h, rfl⟩
      | some ch =>
        have happ : appendAt (dir n id es) (j :: d') c =
            dir n id (es.set j (appendAt ch d' c)) := by
          simp [appendAt, hj]
        rw [happ] at h
        have hlt : j < es.length := (List.getElem?_eq_some_iff.mp hj).1
        cases p with
        | nil =>
          simp only [deref_nil, Option.some.injEq] at h
          subst h
          exact Or.inl ⟨_, rfl, rfl⟩
        | cons i q =>
          simp only [deref_cons, Entries] at h
          by_cases hij : i = j
          · subst hij
            rw [List.getElem?_set_self hlt] at h
            change deref (appendAt ch d' c) q = some e' at h
            rcases ih ch q e' h with ⟨e, h1, h2⟩ | ⟨q', n', id', es', h1, h2, h3⟩
            · exact Or.inl ⟨e, by simpa [deref_cons, Entries, hj] using h1, h2⟩
            · refine Or.inr ⟨q', n', id', es', by simp [h1], h2, ?_⟩
              simpa [deref_cons, Entries, hj] using h3
          · rw [List.getElem?_set_ne (Ne.symm hij)] at h
            exact Or.inl ⟨e', by simpa [deref_cons, Entries] using h, rfl⟩

theorem tokensAux_append (name : List Char) (hn : ∀ c ∈ name, c ≠ '/') (r acc : List Char) :
    tokensAux (name ++ r) acc = tokensAux r (acc ++ name) := by
  induction name generalizing acc with
  | nil => simp
  | cons c cs ih =>
    have hc : c ≠ '/' := hn c (List.mem_cons_self _ _)
    have hcs : ∀ c ∈ cs, c ≠ '/' := fun x hx => hn x (List.mem_cons_of_mem _ hx)
    rw [List.cons_append]
    simp only [tokensAux, if_neg hc]
    rw [ih hcs]
    simp

theorem scan_spec (p : List Char) (hp : ∀ c ∈ p, c ≠ NUL) (pos : Nat) :
    ∃ name rest, p.drop pos = name ++ rest ∧ scan p pos = pos + name.length ∧
      (∀ c ∈ name, c ≠ '/') ∧ (∀ c ∈ name, c ≠ NUL) ∧ (rest = [] ∨ ∃ r, rest = '/' :: r) ∧
      (p.drop pos).take (scan p pos - pos) = name ∧ p.drop (scan p pos) = rest := by
  refine ⟨(p.drop pos).takeWhile (fun c => c != '/' && c != NUL),
    (p.drop pos).dropWhile (fun c => c != '/' && c != NUL), ?_, rfl, ?_, ?_, ?_, ?_, ?_⟩
  · exact (List.takeWhile_append_dropWhile _ _).symm
  · intro c hc
    have := List.mem_takeWhile_imp hc
    simp only [Bool.and_eq_true, bne_iff_ne, ne_eq] at this
    exact this.1
  · intro c hc
    have := List.mem_takeWhile_imp hc
    simp only [Bool.and_eq_true, bne_iff_ne, ne_eq] at this
    exact this.2
  · cases h : (p.drop pos).dropWhile (fun c => c != '/' && c != NUL) with
    | nil => exact Or.inl rfl
    | cons c r =>
      right
      have h1 := List.head_dropWhile_not (fun c => c != '/' && c != NUL) (p.drop pos)
        (by rw [h]; simp)
      simp only [h, List.head_cons] at h1
      have hmem : c ∈ p := by
        have : c ∈ (p.drop pos).dropWhile (fun c => c != '/' && c != NUL) := by rw [h]; simp
        exact List.mem_of_mem_drop ((List.dropWhile_sublist _).subset this)
      have hnul := hp c hmem
      have : c = '/' := by
        by_contra hne
        simp [hne, hnul] at h1
      exact ⟨r, by rw [this]⟩
  · simp only [scan, Nat.add_sub_cancel_left]
    have := List.takeWhile_prefix (fun c => c != '/' && c != NUL) (l := p.drop pos)
    exact (List.prefix_iff_eq_take.mp this).symm
  · simp only [scan]
    rw [← List.drop_drop]
    conv_lhs =>
      arg 2
      rw [← List.takeWhile_append_dropWhile (fun c => c != '/' && c != NUL) (p.drop pos)]
    exact List.drop_left' rfl

theorem loop_eq_walk (p : List Char) (hp : ∀ c ∈ p, c ≠ NUL) (mkdirs : Bool) :
    ∀ (fuel : Nat) (fs : FS) (pos : Nat) (ent : Ptr), p.length - pos < fuel →
      GetEntryMkdirs.loop p mkdirs fuel fs pos ent =
        some (walk mkdirs fs ent (tokens (p.drop pos))) := by
  intro fuel
  induction fuel with
  | zero => intro fs pos ent h; omega
  | succ fuel ih =>
    intro fs pos ent hfuel
    unfold GetEntryMkdirs.loop
    by_cases hpos : pos ≥ p.length
    · rw [if_pos hpos, List.drop_eq_nil_of_le hpos]
      rfl
    · rw [if_neg hpos]
      obtain ⟨name, rest, hdrop, hscan, hslash, hnul, hrest, htake, hdrop'⟩ := scan_spec p hp pos
      have hlen : name.length + rest.length = p.length - pos := by
        have := congrArg List.length hdrop
        simpa using this.symm
      simp only []
      by_cases hname : name = []
      · subst hname
        simp only [List.length_nil, Nat.add_zero] at hscan
        rw [if_pos hscan, hscan]
        rw [ih fs (pos + 1) ent (by omega)]
        rcases hrest with hr | ⟨r, hr⟩
        · subst hr; simp at hlen; omega
        · subst hr
          have h1 : p.drop (pos + 1) = r := by
            rw [← List.drop_drop, hdrop]; simp
          rw [h1, hdrop]
          simp [tokens, tokensAux]
      · have hpos' : scan p pos ≠ pos := by
          rw [hscan]
          have : 0 < name.length := List.length_pos.mpr hname
          omega
        rw [if_neg hpos', htake]
        have h1 : p.drop (scan p pos + 1) = rest.tail := by
          rw [← List.drop_drop, hdrop']; simp
        have hlast : decide (scan p pos = p.length) = decide (rest = []) := by
          congr 1
          apply propext
          constructor
          · intro h
            have : rest.length = 0 := by omega
            exact List.length_eq_zero.mp this
          · intro h
            subst h
            simp at hlen
            omega
        rw [hlast]
        have htok : tokens (p.drop pos) = (name, decide (rest = [])) :: tokens rest.tail := by
          rw [hdrop, tokens, tokensAux_append name hslash]
          rcases hrest with hr | ⟨r, hr⟩
          · subst hr; simp [tokensAux, hname, tokens]
          · subst hr; simp [tokensAux, hname, tokens]
        rw [htok]
        simp only [walk]
        have hfuel' : p.length - (scan p pos + 1) < fuel := by omega
        cases hget : GetEntryIn (Data fs ent) name with
        | none =>
          simp only []
          cases mkdirs with
          | true =>
            simp only [if_true]
            rw [ih _ _ _ hfuel', h1]
          | false => simp
        | some i =>
          simp only []
          split
          · rfl
          · split
            · rfl
            · rw [ih _ _ _ hfuel', h1]

theorem cstr_noNUL (s : List Char) : ∀ c ∈ cstr s, c ≠ NUL := by
  intro c hc
  have := List.mem_takeWhile_imp hc
  simpa using this

theorem cstr_of_noNUL (s : List Char) (h : ∀ c ∈ s, c ≠ NUL) : cstr s = s := by
  unfold cstr
  rw [List.takeWhile_eq_self_iff]
  intro c hc
  simpa using h c hc

theorem tokens_slash (r : List Char) : tokens ('/' :: r) = tokens r := by
  simp [tokens, tokensAux]

theorem GetEntryMkdirs_eq_walk (fs : FS) (path : List Char) (mkdirs : Bool) :
    GetEntryMkdirs fs path mkdirs = walk mkdirs fs [] (tokens (cstr path)) := by
  unfold GetEntryMkdirs
  have hp := cstr_noNUL path
  generalize cstr path = p at hp
  simp only []
  cases p with
  | nil => simp [charAt, tokens, tokensAux, walk]
  | cons c r =>
    have hc : c ≠ NUL := hp c (List.mem_cons_self _ _)
    have h0 : charAt (c :: r) 0 = c := rfl
    rw [h0]
    by_cases h1 : (c = '/' ∧ charAt (c :: r) 1 = NUL) ∨ c = NUL
    · rw [if_pos h1]
      rcases h1 with ⟨hs, hn⟩ | hn
      · subst hs
        cases r with
        | nil => simp [tokens, tokensAux, walk]
        | cons d r' =>
          have : d ≠ NUL := hp d (by simp)
          simp [charAt] at hn
          exact absurd hn this
      · exact absurd hn hc
    · rw [if_neg h1]
      rw [loop_eq_walk (c :: r) hp mkdirs _ fs _ [] (by simp; omega)]
      simp only [Option.getD_some]
      by_cases hs : c = '/'
      · subst hs
        simp [tokens_slash]
      · simp [hs]

theorem splitOnP_allSlash (r : List Char)
    (h : (r.splitOnP (· == '/')).filter (fun s => decide (s ≠ [])) = []) : ∀ c ∈ r, c = '/' := by
  induction r with
  | nil => simp
  | cons c r ih =>
    rw [List.splitOnP_cons] at h
    by_cases hc : c = '/'
    · subst hc
      simp only [beq_self_eq_true, if_true] at h
      rw [List.filter_cons_of_neg (by simp)] at h
      intro x hx
      rcases List.mem_cons.mp hx with rfl | hx
      · rfl
      · exact ih h x hx
    · have hb : (c == '/') = false := by simpa using hc
      simp only [hb] at h
      cases hs : List.splitOnP (· == '/') r with
      | nil => exact absurd hs (List.splitOnP_ne_nil _ _)
      | cons x xs =>
        rw [hs] at h
        simp at h

theorem endsWithSlash_of_all (acc r : List Char) (h : ∀ c ∈ r, c = '/') :
    endsWithSlash (acc ++ '/' :: r) = true := by
  unfold endsWithSlash
  have : ('/' :: r).getLast? = some '/' := by
    have hne : ('/' :: r) ≠ [] := by simp
    rw [List.getLast?_eq_getLast _ hne]
    have hm := List.getLast_mem hne
    rcases List.mem_cons.mp hm with h1 | h1
    · rw [h1]
    · rw [h _ h1]
  simp [List.getLast?_append, this]

theorem endsWithSlash_append_cons (acc : List Char) (c d : Char) (r : List Char) :
    endsWithSlash (acc ++ c :: d :: r) = endsWithSlash (d :: r) := by
  unfold endsWithSlash
  have hne : (d :: r).getLast? ≠ none := by simp
  cases h : (d :: r).getLast? with
  | none => exact absurd h hne
  | some x =>
    have : (acc ++ c :: d :: r).getLast? = some x := by
      rw [List.getLast?_append, List.getLast?_cons_cons, h]; rfl
    rw [this]

theorem tokensAux_eq_mark (p : List Char) :
    ∀ acc : List Char, (∀ c ∈ acc, c ≠ '/') →
      tokensAux p acc =
        mark (((p.splitOnP (· == '/')).modifyHead (fun s => acc ++ s)).filter
          (fun s => decide (s ≠ []))) (endsWithSlash (acc ++ p)) := by
  induction p with
  | nil =>
    intro acc hacc
    simp only [tokensAux, List.splitOnP_nil, List.modifyHead_cons, List.append_nil]
    by_cases ha : acc = []
    · subst ha; simp [mark]
    · rw [if_neg ha, List.filter_cons_of_pos (by simpa using ha)]
      simp only [List.filter_nil, mark, decide_True, Bool.true_and]
      have : endsWithSlash acc = false := by
        unfold endsWithSlash
        have hne := ha
        rw [List.getLast?_eq_getLast _ hne]
        have := hacc _ (List.getLast_mem hne)
        simpa using this
      rw [this]; rfl
  | cons c r ih =>
    intro acc hacc
    rw [List.splitOnP_cons]
    by_cases hc : c = '/'
    · subst hc
      simp only [tokensAux, if_true, beq_self_eq_true, List.modifyHead_cons, List.append_nil]
      have ih0 := ih [] (by simp)
      simp only [List.nil_append] at ih0
      have hid : (fun s : List Char => s) = id := rfl
      rw [hid, List.modifyHead_id] at ih0
      simp only [id] at ih0
      have hflag : ∀ (l : List (List Char)),
          (List.splitOnP (· == '/') r).filter (fun s => decide (s ≠ [])) = l →
          mark l (endsWithSlash (acc ++ '/' :: r)) = mark l (endsWithSlash r) := by
        intro l hl
        cases r with
        | nil =>
          simp at hl
          subst hl
          rfl
        | cons d r' => rw [endsWithSlash_append_cons]
      by_cases ha : acc = []
      · subst ha
        rw [if_pos rfl, List.filter_cons_of_neg (by simp), ih0]
        exact (hflag _ rfl).symm
      · rw [if_neg ha, List.filter_cons_of_pos (by simpa using ha), ih0]
        cases hl : (List.splitOnP (· == '/') r).filter (fun s => decide (s ≠ [])) with
        | nil =>
          have hall := splitOnP_allSlash r hl
          simp [mark, endsWithSlash_of_all acc r hall]
        | cons x xs =>
          rw [← hflag (x :: xs) hl]
          have hm : ∀ sl, mark (acc :: x :: xs) sl = (acc, false) :: mark (x :: xs) sl := by
            intro sl
            rw [mark]
            simp
          rw [hm]
    · have hb : (c == '/') = false := by simpa using hc
      simp only [tokensAux, if_neg hc, hb]
      rw [ih (acc ++ [c])]
      · simp only [Bool.false_eq_true, if_false, List.modifyHead_modifyHead, List.append_assoc,
          List.singleton_append]
        rfl
      · intro x hx
        rcases List.mem_append.mp hx with h1 | h1
        · exact hacc x h1
        · simp at h1; rw [h1]; exact hc

theorem tokens_eq_mark (p : List Char) : tokens p = mark (segments p) (endsWithSlash p) := by
  have := tokensAux_eq_mark p [] (by simp)
  simp only [List.nil_append] at this
  have hid : (fun s : List Char => s) = id := rfl
  rw [hid, List.modifyHead_id] at this
  exact this

theorem findIdx?_find? {α : Type} (q : α → Bool) :
    ∀ (es : List α) (k : Nat),
      (∀ i, es.findIdx? q k = some i → k ≤ i ∧ ∃ c, es[i - k]? = some c ∧ es.find? q = some c ∧
        q c = true ∧ ∀ j c', j < i - k → es[j]? = some c' → q c' = false) ∧
      (es.findIdx? q k = none → es.find? q = none) := by
  intro es
  induction es with
  | nil => intro k; simp
  | cons a as ih =>
    intro k
    rw [List.findIdx?_cons, List.find?_cons]
    cases ha : q a with
    | true =>
      simp only [if_true, Option.some.injEq, reduceCtorEq, false_implies, and_true]
      intro i hi
      subst hi
      refine ⟨Nat.le_refl _, a, by simp, rfl, ha, ?_⟩
      intro j c' hj
      omega
    | false =>
      simp only [Bool.false_eq_true, if_false]
      obtain ⟨ih1, ih2⟩ := ih (k + 1)
      refine ⟨?_, ih2⟩
      intro i hi
      obtain ⟨hle, c, hc1, hc2, hc3, hc4⟩ := ih1 i hi
      refine ⟨by omega, c, ?_, hc2, hc3, ?_⟩
      · have : i - k = (i - (k + 1)) + 1 := by omega
        rw [this, List.getElem?_cons_succ]
        exact hc1
      · intro j c' hj hget
        cases j with
        | zero =>
          simp only [List.getElem?_cons_zero, Option.some.injEq] at hget
          rw [← hget]; exact ha
        | succ j =>
          rw [List.getElem?_cons_succ] at hget
          exact hc4 j c' (by omega) hget

theorem GetEntryIn_some {es : List DirectoryEntry} {name : List Char} {i : Nat}
    (h : GetEntryIn es name = some i) :
    ∃ c, es[i]? = some c ∧ es.find? (fun c => decide (c.Name = name)) = some c ∧
      c.Name = name ∧ ∀ j c', j < i → es[j]? = some c' → c'.Name ≠ name := by
  obtain ⟨_, c, h1, h2, h3, h4⟩ :=
    (findIdx?_find? (fun c : DirectoryEntry => decide (c.Name = name)) es 0).1 i h
  refine ⟨c, by simpa using h1, h2, by simpa using h3, ?_⟩
  intro j c' hj hget
  have := h4 j c' (by simpa using hj) hget
  simpa using this

theorem GetEntryIn_none {es : List DirectoryEntry} {name : List Char}
    (h : GetEntryIn es name = none) :
    es.find? (fun c => decide (c.Name = name)) = none :=
  (findIdx?_find? (fun c : DirectoryEntry => decide (c.Name = name)) es 0).2 h

theorem Data_of_deref {fs : FS} {ent : Ptr} {e : DirectoryEntry}
    (h : deref fs.rootEntry ent = some e) : Data fs ent = e.Entries := by
  simp [Data, h]

theorem deref_snoc {t : DirectoryEntry} {ent : Ptr} {e : DirectoryEntry} (i : Nat)
    (h : deref t ent = some e) : deref t (ent ++ [i]) = e.Entries[i]? := by
  rw [deref_append, h]
  change deref e [i] = _
  rw [deref_cons]
  cases e.Entries[i]? <;> rfl

theorem walk_false_ref (fs : FS) (slash : Bool) :
    ∀ (segs : List (List Char)) (ent : Ptr) (e : DirectoryEntry),
      deref fs.rootEntry ent = some e →
      Option.map (deref fs.rootEntry) (walk false fs ent (mark segs slash)).2 =
        Option.map some (refWalkSlash slash e segs) := by
  intro segs
  induction segs with
  | nil =>
    intro ent e h
    simp [mark, walk, refWalkSlash, h]
  | cons seg rest ih =>
    intro ent e h
    simp only [mark, walk, refWalkSlash, Data_of_deref h]
    cases hg : GetEntryIn e.Entries seg with
    | none => simp [GetEntryIn_none hg]
    | some i =>
      obtain ⟨c, hc1, hc2, _, _⟩ := GetEntryIn_some hg
      have hd : deref fs.rootEntry (ent ++ [i]) = some c := by
        rw [deref_snoc i h, hc1]
      simp only [hd, hc2]
      by_cases hlast : rest = [] ∧ slash = false
      · obtain ⟨h1, h2⟩ := hlast
        subst h1 h2
        simp [hd]
      · have hl : (decide (rest = []) && !slash) = false := by
          cases slash <;> simp_all
        rw [hl, if_neg hlast]
        cases hdir : c.IsDirectory with
        | true => simpa using ih (ent ++ [i]) c hd
        | false => simp

theorem refWalkSlash_false :
    ∀ (segs : List (List Char)) (e : DirectoryEntry),
      refWalkSlash false e segs = refWalk e segs := by
  intro segs
  induction segs with
  | nil => intro e; rfl
  | cons seg rest ih =>
    intro e
    simp only [refWalkSlash, refWalk, and_true]
    cases e.Entries.find? (fun c => decide (c.Name = seg)) with
    | none => rfl
    | some c => simp only [ih]

/-- C4 (amended): `GetEntryMkdirs(path, false)` returns a pointer exactly when the walk over
the non-empty segments of the path finds an entry, and the pointer designates that entry,
where the walk returns a File for the last segment only if no `'/'` follows the segment;
for a path that does not end with `'/'` this walk is the reference walk of the claim. -/
theorem C4_resolution_walks_segments (fs : FS) (path : List Char) :
    Option.map (deref fs.rootEntry) (GetEntryMkdirs fs path false).2 =
        Option.map some
          (refWalkSlash (endsWithSlash (cstr path)) fs.rootEntry (segments (cstr path))) ∧
      ∀ (e : DirectoryEntry) (segs : List (List Char)),
        refWalkSlash false e segs = refWalk e segs := by
  refine ⟨?_, fun e segs => refWalkSlash_false segs e⟩
  rw [GetEntryMkdirs_eq_walk, tokens_eq_mark]
  exact walk_false_ref fs _ _ [] fs.rootEntry rfl

/-- C4 (as stated) fails: `/f.t/` names a File followed by `'/'`; `GetEntryMkdirs` returns
`nullptr` while the reference walk over the segments `["f.t"]` returns the File. -/
theorem C4_trailing_slash_after_file :
    (GetEntryMkdirs fsP1D1 "/f.t/".toList false).2 = none ∧
    refWalk fsP1D1.rootEntry (segments (cstr "/f.t/".toList)) =
      some (.file "f.t".toList 1 fileP1D1) := by
  constructor
  · decide
  · rfl

theorem walk_false_fst (fs : FS) :
    ∀ (toks : List (List Char × Bool)) (ent : Ptr), (walk false fs ent toks).1 = fs := by
  intro toks
  induction toks with
  | nil => intro ent; rfl
  | cons t rest ih =>
    intro ent
    obtain ⟨name, last⟩ := t
    simp only [walk]
    cases GetEntryIn (Data fs ent) name with
    | none => simp
    | some i =>
      simp only []
      split
      · rfl
      · split
        · rfl
        · exact ih _

theorem GetEntry_fst (fs : FS) (path : List Char) : (GetEntry fs path).1 = fs := by
  rw [GetEntry, GetEntryMkdirs_eq_walk]
  exact walk_false_fst fs _ _

theorem toU64_of_range (i : Int) (h0 : 0 ≤ i) (h1 : i < 9223372036854775808) :
    (toU64 i : Int) = i := by
  unfold toU64 U64
  have : i % ((18446744073709551616 : Nat) : Int) = i := Int.emod_eq_of_lt h0 (by omega)
  rw [this]
  exact Int.toNat_of_nonneg h0

/-- C2: a read at or past the end of a file returns 0, issues no positioned read and leaves
the output buffer as it was. -/
theorem C2_read_past_end (fs : FS) (vpk : VPK) (w : Files) (path buf : List Char) (size : Nat)
    (offset : Int) (ent : Ptr) (n : List Char) (id : Nat) (f : File)
    (hres : (GetEntry fs path).2 = some ent)
    (hfile : deref fs.rootEntry ent = some (.file n id f))
    (hoff : (f.Size : Int) ≤ offset) (hrange : offset < 9223372036854775808) :
    vpk_read fs vpk w path buf size offset = .ok ⟨0, buf, []⟩ := by
  have h1 := GetEntry_fst fs path
  unfold vpk_read
  rcases hg : GetEntry fs path with ⟨fs1, r⟩
  rw [hg] at h1 hres
  simp only at h1 hres
  subst h1 hres
  simp only [hfile, vpk_read.file]
  have := toU64_of_range offset (by omega) hrange
  rw [if_pos (by omega)]

theorem C2_read_past_end_witness :
    (GetEntry fsP1D1 "/f.t".toList).2 = some [0] ∧
    deref fsP1D1.rootEntry [0] = some (.file "f.t".toList 1 fileP1D1) ∧
    ((fileP1D1.Size : Int) ≤ 2) ∧ ((2 : Int) < 9223372036854775808) ∧
    vpk_read fsP1D1 ⟨3, 0, [], 40⟩ (mainOnly mainP1D1) "/f.t".toList ['-', '-'] 5 2 =
      .ok ⟨0, ['-', '-'], []⟩ :=
  ⟨by decide, by rfl, by decide, by decide,
    C2_read_past_end fsP1D1 ⟨3, 0, [], 40⟩ (mainOnly mainP1D1) "/f.t".toList ['-', '-'] 5 2 [0]
      "f.t".toList 1 fileP1D1 (by decide) (by rfl) (by decide) (by decide)⟩

/-- C1: on a file with one preload byte and one data byte, the full read returns 2 bytes,
the preload byte `main[36]` followed by `main[41]`, where the bytes the directory record
describes are `main[36]` followed by `main[40]`. -/
theorem C1_full_read_preload_then_data :
    vpk_read fsP1D1 ⟨3, 0, [], 40⟩ (mainOnly mainP1D1) "/f.t".toList ['-', '-'] 2 0 =
      .ok ⟨2, ['P', 'X'], [⟨3, 1, 36⟩, ⟨3, 1, 41⟩]⟩ ∧
    (mainP1D1.drop 36).take 1 ++ (mainP1D1.drop 40).take 1 = ['P', 'D'] := by
  constructor
  · rfl
  · decide

/-- C3: on a file with two preload bytes and one data byte, the read of 3 bytes at offset 1
returns 2 = Size - offset, but fills the buffer with `main[37]`, `main[38]`, while the last
two bytes of the full read are `main[37]`, `main[43]`. -/
theorem C3_tail_read_differs_from_full_read :
    vpk_read fsP2D1 ⟨3, 0, [], 41⟩ (mainOnly mainP2D1) "/f.t".toList ['-', '-', '-'] 3 1 =
      .ok ⟨2, ['Q', '.', '-'], [⟨3, 2, 37⟩]⟩ ∧
    vpk_read fsP2D1 ⟨3, 0, [], 41⟩ (mainOnly mainP2D1) "/f.t".toList ['-', '-', '-'] 3 0 =
      .ok ⟨3, ['P', 'Q', 'Y'], [⟨3, 2, 36⟩, ⟨3, 1, 43⟩]⟩ ∧
    ['Q', '.'] ≠ ['P', 'Q', 'Y'].drop 1 := by
  refine ⟨?_, ?_, ?_⟩
  · rfl
  · rfl
  · decide

theorem cstr_cons (c : Char) (r : List Char) :
    cstr (c :: r) = if c = NUL then [] else c :: cstr r := by
  unfold cstr
  rw [List.takeWhile_cons]
  by_cases h : c = NUL <;> simp [h]

theorem cstr_collapse (p : List Char) : cstr (collapse p) = collapse (cstr p) := by
  induction p with
  | nil => rfl
  | cons c r ih =>
    by_cases hn : c = NUL
    · subst hn
      have hs : ¬ (NUL = '/' ∧ r.head? = some '/') := fun h => absurd h.1 (by decide)
      simp only [collapse, if_neg hs, cstr_cons, if_true]
    · by_cases hc : c = '/' ∧ r.head? = some '/'
      · obtain ⟨h1, h2⟩ := hc
        have hr : ∃ r', r = '/' :: r' := by
          cases r with
          | nil => simp at h2
          | cons d r' => simp at h2; exact ⟨r', by rw [h2]⟩
        obtain ⟨r', hr⟩ := hr
        have hs : ('/' : Char) ≠ NUL := by decide
        have h3 : (cstr r).head? = some '/' := by
          rw [hr, cstr_cons, if_neg hs]; rfl
        rw [cstr_cons, if_neg hn]
        simp only [collapse, h1, h2, h3, and_self, if_true]
        exact ih
      · rw [cstr_cons, if_neg hn]
        have h3 : ¬ (c = '/' ∧ (cstr r).head? = some '/') := by
          intro ⟨h1, h2⟩
          apply hc
          refine ⟨h1, ?_⟩
          cases r with
          | nil => simp [cstr] at h2
          | cons d r' =>
            rw [cstr_cons] at h2
            by_cases hd : d = NUL
            · simp [hd] at h2
            · simp [hd] at h2
              simp [h2]
        simp only [collapse, if_neg hc, if_neg h3, cstr_cons, if_neg hn, ih]

theorem tokensAux_collapse (p : List Char) :
    ∀ acc : List Char, tokensAux (collapse p) acc = tokensAux p acc := by
  induction p with
  | nil => intro acc; rfl
  | cons c r ih =>
    intro acc
    by_cases hc : c = '/' ∧ r.head? = some '/'
    · obtain ⟨h1, h2⟩ := hc
      cases r with
      | nil => simp at h2
      | cons d r' =>
        simp only [List.head?_cons, Option.some.injEq] at h2
        subst h1 h2
        simp only [collapse, List.head?_cons, and_self, if_true] at ih ⊢
        rw [ih acc]
        by_cases ha : acc = []
        · simp [tokensAux, ha]
        · simp [tokensAux, ha]
    · simp only [collapse, if_neg hc]
      by_cases hs : c = '/'
      · simp only [tokensAux, hs, if_true, ih]
      · simp only [tokensAux, if_neg hs, ih]

theorem refWalkSlash_name (slash : Bool) :
    ∀ (segs : List (List Char)) (e c : DirectoryEntry),
      refWalkSlash slash e segs = some c → segs = [] ∨ segs.getLast? = some c.Name := by
  intro segs
  induction segs with
  | nil => intro e c _; exact Or.inl rfl
  | cons seg rest ih =>
    intro e c h
    right
    simp only [refWalkSlash] at h
    cases hf : e.Entries.find? (fun c => decide (c.Name = seg)) with
    | none => simp [hf] at h
    | some c0 =>
      have hname : c0.Name = seg := by
        have := List.find?_some hf
        simpa using this
      simp only [hf] at h
      by_cases hl : rest = [] ∧ slash = false
      · rw [if_pos hl] at h
        obtain ⟨h1, _⟩ := hl
        subst h1
        simp only [Option.some.injEq] at h
        subst h
        simp [hname]
      · rw [if_neg hl] at h
        cases hd : c0.IsDirectory with
        | false => simp [hd] at h
        | true =>
          simp only [hd, if_true] at h
          rcases ih c0 c h with h1 | h1
          · subst h1
            simp only [refWalkSlash, Option.some.injEq] at h
            subst h
            simp [hname]
          · cases rest with
            | nil => simp at h1
            | cons s2 rest' =>
              rw [List.getLast?_cons_cons]
              exact h1

/-- C5: `GetEntry` returns the same result for a path and for the path with every run of
`'/'` collapsed to one `'/'`; and an entry found for a path with at least one segment bears
exactly the last segment as its name. -/
theorem C5_collapse_slashes (fs : FS) (path : List Char) :
    GetEntry fs (collapse path) = GetEntry fs path ∧
    ∀ (ent : Ptr) (e : DirectoryEntry),
      (GetEntry fs path).2 = some ent → deref fs.rootEntry ent = some e →
      segments (cstr path) = [] ∨ (segments (cstr path)).getLast? = some e.Name := by
  constructor
  · simp only [GetEntry, GetEntryMkdirs_eq_walk, cstr_collapse, tokens, tokensAux_collapse]
  · intro ent e h1 h2
    have h := (walk_false_ref fs (endsWithSlash (cstr path)) (segments (cstr path)) []
      fs.rootEntry rfl)
    rw [← tokens_eq_mark, ← GetEntryMkdirs_eq_walk] at h
    change Option.map _ (GetEntry fs path).2 = _ at h
    rw [h1] at h
    simp only [Option.map_some', h2] at h
    cases hr : refWalkSlash (endsWithSlash (cstr path)) fs.rootEntry (segments (cstr path)) with
    | none => simp [hr] at h
    | some c =>
      simp only [hr, Option.map_some', Option.some.injEq] at h
      subst h
      exact refWalkSlash_name _ _ _ _ hr

theorem C5_collapse_slashes_witness :
    (GetEntry fsP1D1 "//f.t".toList).2 = some [0] ∧
    deref fsP1D1.rootEntry [0] = some (.file "f.t".toList 1 fileP1D1) ∧
    GetEntry fsP1D1 (collapse "//f.t".toList) = GetEntry fsP1D1 "//f.t".toList ∧
    (segments (cstr "//f.t".toList) = [] ∨
      (segments (cstr "//f.t".toList)).getLast? =
        some (DirectoryEntry.file "f.t".toList 1 fileP1D1).Name) :=
  ⟨by decide, by rfl, (C5_collapse_slashes fsP1D1 "//f.t".toList).1,
    (C5_collapse_slashes fsP1D1 "//f.t".toList).2 [0] _ (by decide) (by rfl)⟩

theorem Extends.refl (t : DirectoryEntry) : Extends t t :=
  fun _ e h => ⟨e, h, rfl, List.prefix_refl _⟩

theorem Extends.trans {t1 t2 t3 : DirectoryEntry} (h12 : Extends t1 t2) (h23 : Extends t2 t3) :
    Extends t1 t3 := by
  intro p e h
  obtain ⟨e2, h2, hh2, hp2⟩ := h12 p e h
  obtain ⟨e3, h3, hh3, hp3⟩ := h23 p e2 h2
  exact ⟨e3, h3, hh3.trans hh2, hp2.trans hp3⟩

theorem deref_leaf {c e : DirectoryEntry} {q : Ptr} (hc : c.Entries = [])
    (h : deref c q = some e) : q = [] ∧ e = c := by
  cases q with
  | nil =>
    simp only [deref_nil, Option.some.injEq] at h
    exact ⟨rfl, h.symm⟩
  | cons i q => simp [deref_cons, hc] at h

theorem deref_none_of_length {t : DirectoryEntry} {d : Ptr} {n : List Char} {id : Nat}
    {es : List DirectoryEntry} (h : deref t d = some (.dir n id es)) :
    deref t (d ++ [es.length]) = none := by
  rw [deref_snoc _ h]
  simp [Entries]

/-- The entries of a tree after a childless entry has been added to one of its directories. -/
theorem insert_new {t : DirectoryEntry} {d : Ptr} {c : DirectoryEntry} (hc : c.Entries = [])
    {p : Ptr} {e' : DirectoryEntry} (h : deref (appendAt t d c) p = some e') :
    (∃ e, deref t p = some e ∧ header e' = header e) ∨
    (e' = c ∧ deref t p = none ∧ ValidDir t d) := by
  rcases deref_appendAt_new c d t p e' h with h1 | ⟨q, n, id, es, h1, h2, h3⟩
  · exact Or.inl h1
  · obtain ⟨hq, he⟩ := deref_leaf hc h2
    subst hq
    refine Or.inr ⟨he, ?_, n, id, es, h3⟩
    rw [h1]
    exact deref_none_of_length h3

theorem insert_extends (t : DirectoryEntry) (d : Ptr) (c : DirectoryEntry) :
    Extends t (appendAt t d c) := by
  intro p e h
  obtain ⟨e', h1, h2, h3⟩ := deref_appendAt_old c d t p e h
  exact ⟨e', h1, h2, by rw [h3]; exact List.prefix_append _ _⟩

theorem header_ID {e e' : DirectoryEntry} (h : header e' = header e) : e'.ID = e.ID := by
  have := congrArg (fun x => x.2.1) h
  exact this

theorem header_Name {e e' : DirectoryEntry} (h : header e' = header e) : e'.Name = e.Name := by
  have := congrArg (fun x => x.1) h
  exact this

theorem insert_distinctIDs {t : DirectoryEntry} {d : Ptr} {c : DirectoryEntry}
    (hc : c.Entries = []) (hd : DistinctIDs t)
    (hfresh : ∀ p e, deref t p = some e → e.ID ≠ c.ID) :
    DistinctIDs (appendAt t d c) := by
  intro p q e e' hp hq hid
  rcases insert_new hc hp with ⟨e1, hp1, hh1⟩ | ⟨he1, hn1, hv1⟩
  · rcases insert_new hc hq with ⟨e2, hq2, hh2⟩ | ⟨he2, hn2, hv2⟩
    · apply hd p q e1 e2 hp1 hq2
      rw [← header_ID hh1, ← header_ID hh2]
      exact hid
    · exfalso
      apply hfresh p e1 hp1
      rw [← header_ID hh1, hid, he2]
  · rcases insert_new hc hq with ⟨e2, hq2, hh2⟩ | ⟨he2, hn2, hv2⟩
    · exfalso
      apply hfresh q e2 hq2
      rw [← header_ID hh2, ← hid, he1]
    · -- both are the new entry: it has one address
      obtain ⟨n, id, es, hv⟩ := hv1
      rcases deref_appendAt_new c d t p e hp with ⟨e1, h1, _⟩ | ⟨q1, _, _, es1, h1, h2, h3⟩
      · rw [hn1] at h1; exact absurd h1 (by simp)
      · rcases deref_appendAt_new c d t q e' hq with ⟨e2, h4, _⟩ | ⟨q2, _, _, es2, h4, h5, h6⟩
        · rw [hn2] at h4; exact absurd h4 (by simp)
        · have e1 := (deref_leaf hc h2).1
          have e2 := (deref_leaf hc h5).1
          rw [h3] at h6
          simp only [Option.some.injEq, dir.injEq] at h6
          rw [h1, h4, e1, e2, h6.2.2]

theorem insert_IDsBelow {t : DirectoryEntry} {d : Ptr} {c : DirectoryEntry} {n : Nat}
    (hc : c.Entries = []) (hb : IDsBelow t n) (hcn : c.ID ≤ n) :
    IDsBelow (appendAt t d c) n := by
  intro p e' hp
  rcases insert_new hc hp with ⟨e1, hp1, hh1⟩ | ⟨he1, _, _⟩
  · rw [header_ID hh1]; exact hb p e1 hp1
  · rw [he1]; exact hcn

theorem tokensAux_forall (P : Char → Prop) (p : List Char) :
    ∀ acc : List Char, (∀ c ∈ acc, P c) → (∀ c ∈ p, P c) →
      ∀ t ∈ tokensAux p acc, ∀ c ∈ t.1, P c := by
  induction p with
  | nil =>
    intro acc hacc _ t ht c hc
    simp only [tokensAux] at ht
    by_cases ha : acc = []
    · simp [ha] at ht
    · simp only [if_neg ha, List.mem_singleton] at ht
      subst ht
      exact hacc c hc
  | cons x r ih =>
    intro acc hacc hp t ht c hc
    have hr : ∀ c ∈ r, P c := fun c hc => hp c (List.mem_cons_of_mem _ hc)
    simp only [tokensAux] at ht
    by_cases hx : x = '/'
    · simp only [hx, if_true] at ht
      by_cases ha : acc = []
      · simp only [ha, if_true] at ht
        exact ih [] (by simp) hr t ht c hc
      · simp only [if_neg ha, List.mem_cons] at ht
        rcases ht with ht | ht
        · subst ht; exact hacc c hc
        · exact ih [] (by simp) hr t ht c hc
    · simp only [if_neg hx] at ht
      refine ih (acc ++ [x]) ?_ hr t ht c hc
      intro c hc
      rcases List.mem_append.mp hc with h1 | h1
      · exact hacc c h1
      · simp only [List.mem_singleton] at h1
        subst h1
        exact hp _ (List.mem_cons_self _ _)

theorem tokens_noNUL (path : List Char) : ∀ t ∈ tokens (cstr path), ∀ c ∈ t.1, c ≠ NUL :=
  tokensAux_forall (fun c => c ≠ NUL) (cstr path) [] (by simp) (cstr_noNUL path)

theorem tokensAux_length (p : List Char) :
    ∀ acc : List Char, (tokensAux p acc).length ≤ p.length + (if acc = [] then 0 else 1) := by
  induction p with
  | nil =>
    intro acc
    by_cases ha : acc = [] <;> simp [tokensAux, ha]
  | cons x r ih =>
    intro acc
    simp only [tokensAux]
    by_cases hx : x = '/'
    · simp only [hx, if_true]
      have := ih []
      simp only [if_true] at this
      by_cases ha : acc = []
      · simp only [ha, if_true, List.length_cons]; omega
      · simp only [if_neg ha, List.length_cons]; omega
    · simp only [if_neg hx]
      have := ih (acc ++ [x])
      simp only [List.append_eq_nil, List.cons_ne_self, and_false, if_false, reduceCtorEq] at this
      simp only [List.length_cons]
      split <;> omega

theorem cstr_length_le (path : List Char) : (cstr path).length ≤ path.length :=
  (List.takeWhile_sublist _).length_le

theorem tokens_length_le (path : List Char) : (tokens (cstr path)).length ≤ path.length := by
  have h1 := tokensAux_length (cstr path) []
  have h2 := cstr_length_le path
  simp only [if_true] at h1
  unfold tokens
  omega

theorem budget_weaken {Q : Nat → FS → Prop} (hmono : ∀ n fs, Q (n + 1) fs → Q n fs) (fs : FS) :
    ∀ (k n : Nat), Q (n + k) fs → Q n fs := by
  intro k
  induction k with
  | zero => intro n h; exact h
  | succ k ih => intro n h; exact ih n (hmono _ _ h)

/-- An assertion indexed by the number of directories that may still be created, kept by
each directory creation and by lowering the index, holds after the loop of
`GetEntryMkdirs(path, true)`. -/
theorem walk_true_inv (Q : Nat → FS → Prop) (hmono : ∀ n fs, Q (n + 1) fs → Q n fs)
    (hstep : ∀ n fs d name, Q (n + 1) fs → GetEntryIn (Data fs d) name = none →
      (∀ c ∈ name, c ≠ NUL) → Q n (AddDirectoryTo fs d name).1) :
    ∀ (toks : List (List Char × Bool)) (fs : FS) (ent : Ptr),
      (∀ t ∈ toks, ∀ c ∈ t.1, c ≠ NUL) → Q toks.length fs →
      Q 0 (walk true fs ent toks).1 := by
  intro toks
  induction toks with
  | nil => intro fs ent _ h; exact h
  | cons t rest ih =>
    intro fs ent hn h
    obtain ⟨name, last⟩ := t
    have hrest : ∀ t ∈ rest, ∀ c ∈ t.1, c ≠ NUL := fun t ht => hn t (List.mem_cons_of_mem _ ht)
    have hname : ∀ c ∈ name, c ≠ NUL := hn (name, last) (List.mem_cons_self _ _)
    have h0 : Q 0 fs := budget_weaken hmono fs _ 0 (by simpa using h)
    simp only [walk]
    cases hg : GetEntryIn (Data fs ent) name with
    | none =>
      simp only [if_true]
      exact ih _ _ hrest (hstep _ fs ent name h hg hname)
    | some i =>
      simp only []
      split
      · exact h0
      · split
        · exact h0
        · exact ih _ _ hrest (hmono _ _ h)

theorem mkdirs_inv (Q : Nat → FS → Prop) (hmono : ∀ n fs, Q (n + 1) fs → Q n fs)
    (hstep : ∀ n fs d name, Q (n + 1) fs → GetEntryIn (Data fs d) name = none →
      (∀ c ∈ name, c ≠ NUL) → Q n (AddDirectoryTo fs d name).1)
    (fs : FS) (path : List Char) (h : Q path.length fs) :
    Q 0 (GetEntryMkdirs fs path true).1 := by
  rw [GetEntryMkdirs_eq_walk]
  apply walk_true_inv Q hmono hstep _ _ _ (tokens_noNUL path)
  have hle := tokens_length_le path
  obtain ⟨k, hk⟩ := Nat.exists_eq_add_of_le hle
  apply budget_weaken hmono fs k
  rw [← hk]
  exact h

/-- What `AddEntry` does when it returns: `GetEntryMkdirs(path, true)` gave a directory, behind
whose entries the new entry is stored. -/
theorem AddEntry_ok {fs fs' : FS} {path : List Char} {entry : DirectoryEntry} {r : Ptr}
    (h : AddEntry fs path entry = .ok (fs', r)) :
    ∃ ent n id es, (GetEntryMkdirs fs path true).2 = some ent ∧
      deref (GetEntryMkdirs fs path true).1.rootEntry ent = some (.dir n id es) ∧
      fs'.rootEntry = appendAt (GetEntryMkdirs fs path true).1.rootEntry ent entry ∧
      fs'.IDCount = (GetEntryMkdirs fs path true).1.IDCount ∧ r = ent ++ [es.length] := by
  unfold AddEntry at h
  rcases hg : GetEntryMkdirs fs path true with ⟨fs1, o⟩
  rw [hg] at h
  cases o with
  | none => simp at h
  | some ent =>
    simp only at h
    cases hd : deref fs1.rootEntry ent with
    | none => simp [hd] at h
    | some e =>
      cases e with
      | file n id f => simp [hd] at h
      | dir n id es =>
        simp only [hd, AddEntryTo, Except.ok.injEq, Prod.mk.injEq] at h
        obtain ⟨h1, h2⟩ := h
        subst h1
        refine ⟨ent, n, id, es, rfl, hd, rfl, rfl, ?_⟩
        rw [← h2, Data_of_deref hd]
        rfl

theorem IDState.mono (t0 : DirectoryEntry) (base : Nat) :
    ∀ n fs, IDState t0 base (n + 1) fs → IDState t0 base n fs := by
  intro n fs ⟨h1, h2⟩
  exact ⟨by omega, h2⟩

theorem IDState.step (t0 : DirectoryEntry) (base : Nat) :
    ∀ n fs d name, IDState t0 base (n + 1) fs → GetEntryIn (Data fs d) name = none →
      (∀ c ∈ name, c ≠ NUL) → IDState t0 base n (AddDirectoryTo fs d name).1 := by
  intro n fs d name ⟨h1, h2, h3, h4, h5, h6⟩ _ _
  have hid : (fs.IDCount + 1) % U64 = fs.IDCount + 1 := Nat.mod_eq_of_lt (by omega)
  simp only [AddDirectoryTo, AddEntryTo, hid]
  clear hid
  refine ⟨?_, ?_, h3.trans (insert_extends _ _ _), ?_, ?_, ?_⟩
  · show fs.IDCount + 1 + n < U64
    omega
  · show base ≤ fs.IDCount + 1
    omega
  · refine insert_distinctIDs ?_ h4 ?_
    · rfl
    · intro p e hp
      have := h5 p e hp
      show e.ID ≠ fs.IDCount + 1
      omega
  · refine insert_IDsBelow ?_ ?_ ?_
    · rfl
    · intro p e hp
      have := h5 p e hp
      show e.ID ≤ fs.IDCount + 1
      omega
    · exact Nat.le_refl _
  · intro p e' hp hn
    rcases insert_new (by rfl) hp with ⟨e, hpe, hh⟩ | ⟨he, _, _⟩
    · rw [header_ID hh]
      exact h6 p e hpe hn
    · rw [he]
      show base < fs.IDCount + 1
      omega

theorem IDState.init {fs : FS} {base n : Nat} (hd : DistinctIDs fs.rootEntry)
    (hb : IDsBelow fs.rootEntry fs.IDCount) (h1 : fs.IDCount ≤ base) (h2 : base + n < U64) :
    IDState fs.rootEntry base n { fs with IDCount := base } := by
  refine ⟨h2, Nat.le_refl _, Extends.refl _, hd, ?_, ?_⟩
  · intro p e hp
    have := hb p e hp
    show e.ID ≤ base
    omega
  · intro p e hp hn
    change deref fs.rootEntry p = some e at hp
    rw [hp] at hn
    exact absurd hn (by simp)

/-- The identifiers after `GetEntryMkdirs(path, true)` run with the counter at `base`. -/
theorem mkdirs_IDState {fs : FS} (base : Nat) (path : List Char) (hd : DistinctIDs fs.rootEntry)
    (hb : IDsBelow fs.rootEntry fs.IDCount) (h1 : fs.IDCount ≤ base)
    (h2 : base + path.length < U64) :
    IDState fs.rootEntry base 0 (GetEntryMkdirs { fs with IDCount := base } path true).1 :=
  mkdirs_inv (IDState fs.rootEntry base) (IDState.mono _ _) (IDState.step _ _) _ path
    (IDState.init hd hb h1 h2)

/-- The identifiers after an entry with the identifier `k` reserved before
`GetEntryMkdirs(path, true)` has been stored. -/
theorem AddEntry_IDs {fs fs' : FS} {path : List Char} {c : DirectoryEntry} {r : Ptr}
    (hd : DistinctIDs fs.rootEntry) (hb : IDsBelow fs.rootEntry fs.IDCount)
    (hr : Headroom fs path) (hc : c.Entries = []) (hk : c.ID = fs.IDCount + 1)
    (h : AddEntry { fs with IDCount := fs.IDCount + 1 } path c = .ok (fs', r)) :
    DistinctIDs fs'.rootEntry ∧ IDsBelow fs'.rootEntry fs'.IDCount ∧
      Extends fs.rootEntry fs'.rootEntry ∧
      ∀ p e', deref fs'.rootEntry p = some e' → deref fs.rootEntry p = none →
        fs.IDCount < e'.ID := by
  have hs := mkdirs_IDState (fs.IDCount + 1) path hd hb (by omega)
    (by unfold Headroom at hr; omega)
  obtain ⟨ent, n, id, es, _, _, h3, h4, _⟩ := AddEntry_ok h
  generalize (GetEntryMkdirs { fs with IDCount := fs.IDCount + 1 } path true).1 = fs2 at hs h3 h4
  obtain ⟨_, s2, s3, s4, s5, s6⟩ := hs
  have hfresh : ∀ p e, deref fs2.rootEntry p = some e → e.ID ≠ c.ID := by
    intro p e hp
    rw [hk]
    cases h0 : deref fs.rootEntry p with
    | none =>
      have := s6 p e hp h0
      omega
    | some e0 =>
      obtain ⟨e', h1', h2', _⟩ := s3 p e0 h0
      rw [hp] at h1'
      simp only [Option.some.injEq] at h1'
      subst h1'
      have := hb p e0 h0
      rw [header_ID h2']
      omega
  rw [h3, h4]
  refine ⟨insert_distinctIDs hc s4 hfresh, insert_IDsBelow hc s5 (by omega),
    s3.trans (insert_extends _ _ _), ?_⟩
  intro p e' hp hn
  rcases insert_new hc hp with ⟨e, hpe, hh⟩ | ⟨he, _, _⟩
  · rw [header_ID hh]
    have := s6 p e hpe hn
    omega
  · rw [he, hk]
    omega

/-- What one call does to the identifiers. -/
theorem Step_IDs {fs fs' : FS} (hd : DistinctIDs fs.rootEntry)
    (hb : IDsBelow fs.rootEntry fs.IDCount) (hs : Step fs fs') :
    DistinctIDs fs'.rootEntry ∧ IDsBelow fs'.rootEntry fs'.IDCount ∧
      Extends fs.rootEntry fs'.rootEntry ∧
      ∀ p e', deref fs'.rootEntry p = some e' → deref fs.rootEntry p = none →
        fs.IDCount < e'.ID := by
  cases hs with
  | addFile path name file ent hr h =>
    have hid : (fs.IDCount + 1) % U64 = fs.IDCount + 1 :=
      Nat.mod_eq_of_lt (by unfold Headroom at hr; omega)
    simp only [AddFile, hid] at h
    exact AddEntry_IDs hd hb hr (by rfl) (by rfl) h
  | addDirectory path name ent hr h =>
    have hid : (fs.IDCount + 1) % U64 = fs.IDCount + 1 :=
      Nat.mod_eq_of_lt (by unfold Headroom at hr; omega)
    simp only [AddDirectory, hid] at h
    exact AddEntry_IDs hd hb hr (by rfl) (by rfl) h
  | mkdirs path hr h =>
    have hs := mkdirs_IDState fs.IDCount path hd hb (Nat.le_refl _)
      (by unfold Headroom at hr; omega)
    have hfs : ({ fs with IDCount := fs.IDCount } : FS) = fs := rfl
    rw [hfs, h] at hs
    obtain ⟨_, _, s3, s4, s5, s6⟩ := hs
    exact ⟨s4, s5, s3, s6⟩

theorem Init_IDs : DistinctIDs InitFileSystem.rootEntry ∧
    IDsBelow InitFileSystem.rootEntry InitFileSystem.IDCount := by
  have hleaf : ∀ p e, deref InitFileSystem.rootEntry p = some e →
      p = [] ∧ e = InitFileSystem.rootEntry := fun p e h => deref_leaf rfl h
  constructor
  · intro p q e e' hp hq _
    rw [(hleaf p e hp).1, (hleaf q e' hq).1]
  · intro p e hp
    rw [(hleaf p e hp).2]
    exact Nat.le_refl _

theorem Reachable_IDs {fs : FS} (h : Reachable fs) :
    DistinctIDs fs.rootEntry ∧ IDsBelow fs.rootEntry fs.IDCount := by
  induction h with
  | init => exact Init_IDs
  | step _ s ih =>
    obtain ⟨h1, h2, _, _⟩ := Step_IDs ih.1 ih.2 s
    exact ⟨h1, h2⟩

/-- C9: in every state reached from `InitFileSystem` by calls of `AddFile`, `AddDirectory` and
`GetEntryMkdirs(path, true)` during which the 64-bit counter does not wrap, the entries of
the tree, the root included, carry pairwise distinct identifiers; and a further such call
leaves every existing entry at its address with its identifier, and gives every entry it
creates an identifier that no entry carried before the call. -/
theorem C9_identifiers_unique_and_stable (fs : FS) (h : Reachable fs) :
    DistinctIDs fs.rootEntry ∧
    ∀ fs', Step fs fs' →
      (∀ p e, deref fs.rootEntry p = some e →
        ∃ e', deref fs'.rootEntry p = some e' ∧ e'.ID = e.ID) ∧
      (∀ p e', deref fs'.rootEntry p = some e' → deref fs.rootEntry p = none →
        ∀ q e, deref fs.rootEntry q = some e → e.ID ≠ e'.ID) := by
  obtain ⟨hd, hb⟩ := Reachable_IDs h
  refine ⟨hd, ?_⟩
  intro fs' hs
  obtain ⟨_, _, h3, h4⟩ := Step_IDs hd hb hs
  constructor
  · intro p e hp
    obtain ⟨e', h1, h2, _⟩ := h3 p e hp
    exact ⟨e', h1, header_ID h2⟩
  · intro p e' hp hn q e hq
    have h5 := h4 p e' hp hn
    have h6 := hb q e hq
    omega

theorem lookup_eq_refWalkSlash (fs : FS) (path : List Char) :
    lookup fs path =
      refWalkSlash (endsWithSlash (cstr path)) fs.rootEntry (segments (cstr path)) := by
  have h := walk_false_ref fs (endsWithSlash (cstr path)) (segments (cstr path)) []
    fs.rootEntry rfl
  rw [← tokens_eq_mark, ← GetEntryMkdirs_eq_walk] at h
  unfold lookup
  rw [GetEntry_fst]
  change Option.map _ (GetEntry fs path).2 = _ at h
  cases hg : (GetEntry fs path).2 with
  | none =>
    rw [hg] at h
    cases hr : refWalkSlash (endsWithSlash (cstr path)) fs.rootEntry (segments (cstr path)) with
    | none => rfl
    | some c => rw [hr] at h; simp at h
  | some ent =>
    rw [hg] at h
    cases hr : refWalkSlash (endsWithSlash (cstr path)) fs.rootEntry (segments (cstr path)) with
    | none => rw [hr] at h; simp at h
    | some c =>
      rw [hr] at h
      simp only [Option.map_some', Option.some.injEq] at h
      exact h

theorem refWalkSlash_leaf (slash : Bool) (c : DirectoryEntry) (hc : c.Entries = [])
    (s : List Char) (r : List (List Char)) : refWalkSlash slash c (s :: r) = none := by
  simp [refWalkSlash, hc]

/-- Two directories of the same name whose children are the same two childless
directories, in either order: the walks from them meet the same names and kinds. -/
theorem iso_two_children (slash : Bool) (n x y : List Char) (hxy : x ≠ y) (i i' j j' k k' : Nat)
    (segs : List (List Char)) :
    Option.map nameKind (refWalkSlash slash (.dir n i [.dir x j [], .dir y k []]) segs) =
      Option.map nameKind (refWalkSlash slash (.dir n i' [.dir y j' [], .dir x k' []]) segs) := by
  cases segs with
  | nil => rfl
  | cons s r =>
    simp only [refWalkSlash, Entries, List.find?_cons, DirectoryEntry.Name, List.find?_nil]
    have hleaf : ∀ (m : List Char) (a : Nat),
        Option.map nameKind
          (if r = [] ∧ slash = false then some (dir m a [])
            else if (dir m a []).IsDirectory = true then refWalkSlash slash (dir m a []) r
            else none) =
        if r = [] then some (m, true) else none := by
      intro m a
      cases r with
      | nil => cases slash <;> simp [refWalkSlash, nameKind, IsDirectory, DirectoryEntry.Name]
      | cons s' r' =>
        have := refWalkSlash_leaf slash (dir m a []) rfl s' r'
        simp [this, IsDirectory]
    by_cases hx : x = s
    · have hy : ¬ (y = s) := fun h => hxy (hx.trans h.symm)
      simp only [hx, hy, decide_True, decide_False]
      rw [hleaf, hleaf]
    · by_cases hy : y = s
      · simp only [hx, hy, decide_True, decide_False]
        rw [hleaf, hleaf]
      · simp only [hx, hy, decide_False]

/-- Two directories of the same name with one child each: if the walks from the children
meet the same names and kinds, so do the walks from the directories. -/
theorem iso_one_child (slash : Bool) (n : List Char) (i i' : Nat) (X Y : DirectoryEntry)
    (hXY : nameKind X = nameKind Y)
    (h : ∀ segs, Option.map nameKind (refWalkSlash slash X segs) =
      Option.map nameKind (refWalkSlash slash Y segs))
    (segs : List (List Char)) :
    Option.map nameKind (refWalkSlash slash (.dir n i [X]) segs) =
      Option.map nameKind (refWalkSlash slash (.dir n i' [Y]) segs) := by
  have hn : X.Name = Y.Name := congrArg Prod.fst hXY
  have hd : X.IsDirectory = Y.IsDirectory := congrArg Prod.snd hXY
  cases segs with
  | nil => rfl
  | cons s r =>
    simp only [refWalkSlash, Entries, List.find?_cons, List.find?_nil, hn]
    by_cases hs : Y.Name = s
    · simp only [hs, decide_True]
      by_cases hl : r = [] ∧ slash = false
      · simp only [if_pos hl, Option.map_some', hXY]
      · simp only [if_neg hl, hd]
        cases Y.IsDirectory with
        | true => simpa using h r
        | false => rfl
    · simp only [hs, decide_False]

/-- C7: from the empty root, `AddDirectory("/a/b", "c")` then `AddDirectory("/a/b", "d")`
give the root one child `a`, `a` one child `b`, and `b` the two children `c` and `d`; the
two insertions in the reverse order give a tree with the same names and kinds at every
path. -/
theorem C7_autocreation_order_independent :
    AddDirectory InitFileSystem "/a/b".toList "c".toList = .ok (fsABC, [0, 0, 0]) ∧
    AddDirectory fsABC "/a/b".toList "d".toList = .ok (fsCD, [0, 0, 1]) ∧
    AddDirectory InitFileSystem "/a/b".toList "d".toList = .ok (fsABD, [0, 0, 0]) ∧
    AddDirectory fsABD "/a/b".toList "c".toList = .ok (fsDC, [0, 0, 1]) ∧
    (Data fsCD []).map DirectoryEntry.Name = [['a']] ∧
    (Data fsCD [0]).map DirectoryEntry.Name = [['b']] ∧
    (Data fsCD [0, 0]).map DirectoryEntry.Name = [['c'], ['d']] ∧
    ∀ path, Option.map nameKind (lookup fsCD path) = Option.map nameKind (lookup fsDC path) := by
  refine ⟨by rfl, by rfl, by rfl, by rfl, by rfl, by rfl, by rfl, ?_⟩
  intro path
  rw [lookup_eq_refWalkSlash, lookup_eq_refWalkSlash]
  apply iso_one_child _ _ _ _ _ _ (by rfl)
  intro segs
  apply iso_one_child _ _ _ _ _ _ (by rfl)
  intro segs
  exact iso_two_children _ _ _ _ (by decide) _ _ _ _ _ _ _

/-- C8: `GetEntry(path)` leaves the tree and the identifier counter as they were, so a
second call with the same path returns what the first returned, and the entry found is the
same. -/
theorem C8_lookup_leaves_state (fs : FS) (path : List Char) :
    (GetEntry fs path).1 = fs ∧
    GetEntry (GetEntry fs path).1 path = GetEntry fs path ∧
    lookup (GetEntry fs path).1 path = lookup fs path := by
  have h := GetEntry_fst fs path
  exact ⟨h, by rw [h], by rw [h]⟩

/-- C6: with the File `/f.t` in the tree, `AddDirectory("/f.t", "x")` and
`AddFile("/f.t", "x", file)` store through the `Data` of the File as if it were a Directory,
and `AddDirectory("/f.t/sub", "x")` and `AddFile("/f.t/sub", "x", file)` dereference the
`nullptr` that `GetEntryMkdirs` returned; none returns an error, and `IDCount` has moved from
1 to 2 in all of them. -/
theorem C6_insertion_below_a_file :
    AddFile InitFileSystem "/".toList "f.t".toList fileP1D1 = .ok (fsP1D1, [0]) ∧
    AddDirectory fsP1D1 "/f.t".toList "x".toList =
      .error (Fault.fileAsDirectory, { fsP1D1 with IDCount := 2 }) ∧
    AddFile fsP1D1 "/f.t".toList "x".toList fileP1D1 =
      .error (Fault.fileAsDirectory, { fsP1D1 with IDCount := 2 }) ∧
    AddDirectory fsP1D1 "/f.t/sub".toList "x".toList =
      .error (Fault.nullDeref, { fsP1D1 with IDCount := 2 }) ∧
    AddFile fsP1D1 "/f.t/sub".toList "x".toList fileP1D1 =
      .error (Fault.nullDeref, { fsP1D1 with IDCount := 2 }) := by
  refine ⟨by rfl, by rfl, by rfl, by rfl, by rfl⟩

theorem C9_identifiers_unique_and_stable_witness :
    Reachable fsABC ∧
    (DistinctIDs fsABC.rootEntry ∧
      ∀ fs', Step fsABC fs' →
        (∀ p e, deref fsABC.rootEntry p = some e →
          ∃ e', deref fs'.rootEntry p = some e' ∧ e'.ID = e.ID) ∧
        (∀ p e', deref fs'.rootEntry p = some e' → deref fsABC.rootEntry p = none →
          ∀ q e, deref fsABC.rootEntry q = some e → e.ID ≠ e'.ID)) :=
  have hr : Reachable fsABC :=
    Reachable.step Reachable.init
      (Step.addDirectory "/a/b".toList "c".toList [0, 0, 0] (by unfold Headroom U64; decide)
        (by rfl))
  ⟨hr, C9_identifiers_unique_and_stable fsABC hr⟩

/-- C11: `AddVPKFile` with the filename `foo` and the extension marker `" "` inserts the file
under the name `foo.`, the dot being kept; with the path marker `" "` the file goes into
the root directory, and with the filename marker `" "` and the extension `txt` the name is
`.txt`. -/
theorem C11_dot_kept_for_empty_extension :
    AddVPKFile InitFileSystem vpk40 " ".toList "foo".toList " ".toList recPlain 30 =
      .ok (⟨.dir ['/'] 0 [.file "foo.".toList 1 ⟨11, 0, 0, 0x7fff, 11, 40⟩], 1⟩, vpk40) ∧
    AddVPKFile InitFileSystem vpk40 " ".toList " ".toList "txt".toList recPlain 30 =
      .ok (⟨.dir ['/'] 0 [.file ".txt".toList 1 ⟨11, 0, 0, 0x7fff, 11, 40⟩], 1⟩, vpk40) := by
  constructor
  · rfl
  · rfl

/-- C12: for a record with `PreloadBytes = 1` and `EntryLength = 4294967295` the `File`
that `AddVPKFile` builds has `Size = 0`, `PreloadSize = 1` and `DataSize = 4294967295`; for
every record `Size` is the sum reduced modulo 2^32. -/
theorem C12_size_wraps :
    AddVPKFile.file vpk40 ⟨0, 1, 0, 0, 4294967295, 0xffff⟩ 30 =
      ⟨0, 1, 30, 0, 4294967295, 0⟩ ∧
    ∀ (vpk : VPK) (dirEnt : VPKDirectoryEntry) (off : Nat),
      (AddVPKFile.file vpk dirEnt off).Size = (dirEnt.PreloadBytes + dirEnt.EntryLength) % U32 ∧
      (AddVPKFile.file vpk dirEnt off).PreloadSize = dirEnt.PreloadBytes ∧
      (AddVPKFile.file vpk dirEnt off).DataSize = dirEnt.EntryLength := by
  constructor
  · decide
  · intro vpk dirEnt off
    exact ⟨rfl, rfl, rfl⟩

theorem ReadString.loop_spec (str : List Char) (hno : ∀ c ∈ str, c ≠ NUL) (tail : List Char) :
    ∀ (c : Char) (buf : List Char) (n : Nat),
      ReadString.loop (str ++ NUL :: tail) c buf n =
        some (buf ++ str.take (512 - buf.length), n + str.length + 1) := by
  induction str with
  | nil => intro c buf n; simp [ReadString.loop]
  | cons x xs ih =>
    intro c buf n
    have hx : x ≠ NUL := hno x (List.mem_cons_self _ _)
    have hxs : ∀ c ∈ xs, c ≠ NUL := fun c hc => hno c (List.mem_cons_of_mem _ hc)
    rw [List.cons_append]
    simp only [ReadString.loop, if_neg hx]
    rw [ih hxs]
    by_cases hb : buf.length < 512
    · rw [if_pos hb]
      obtain ⟨k, hk⟩ : ∃ k, 512 - buf.length = k + 1 := ⟨511 - buf.length, by omega⟩
      have hk' : 512 - (buf ++ [x]).length = k := by simp; omega
      rw [hk, hk']
      simp [List.take_succ_cons]
      omega
    · rw [if_neg hb]
      have h0 : 512 - buf.length = 0 := by omega
      simp [h0]
      omega

theorem ReadString_spec (fd : Stream) (str tail : List Char) (hno : ∀ c ∈ str, c ≠ NUL)
    (hrest : fd.rest = str ++ NUL :: tail) :
    ReadString fd = some (str.take 512, ⟨fd.pos + (str.length + 1), tail⟩) := by
  unfold ReadString
  rw [hrest, ReadString.loop_spec str hno tail]
  simp [Stream.skip, hrest]

theorem cstr_split (l : List Char) (h : NUL ∈ l) :
    ∃ tail, l = cstr l ++ NUL :: tail := by
  induction l with
  | nil => simp at h
  | cons x xs ih =>
    by_cases hx : x = NUL
    · exact ⟨xs, by simp [cstr_cons, hx]⟩
    · have hm : NUL ∈ xs := by
        rcases List.mem_cons.mp h with h1 | h1
        · exact absurd h1.symm hx
        · exact h1
      obtain ⟨tail, ht⟩ := ih hm
      refine ⟨tail, ?_⟩
      rw [cstr_cons, if_neg hx, List.cons_append, ← ht]

/-- C15 (amended): on a stream with a zero byte at or after the cursor `ReadString`
returns; the string returned holds the bytes before the first zero byte cut to at most 512
bytes, and the cursor is left behind that zero byte. -/
theorem C15_ReadString_keeps_512 (fd : Stream) (h : NUL ∈ fd.rest) :
    ReadString fd =
      some ((cstr fd.rest).take 512, fd.skip ((cstr fd.rest).length + 1)) := by
  obtain ⟨tail, ht⟩ := cstr_split fd.rest h
  have hno := cstr_noNUL fd.rest
  generalize cstr fd.rest = s at ht hno
  rw [ReadString_spec fd s tail hno ht]
  simp [Stream.skip, ht]

theorem C15_ReadString_keeps_512_witness :
    NUL ∈ (⟨0, "ab".toList ++ NUL :: "cd".toList⟩ : Stream).rest ∧
    ReadString ⟨0, "ab".toList ++ NUL :: "cd".toList⟩ = some ("ab".toList, ⟨3, "cd".toList⟩) :=
  ⟨by decide, C15_ReadString_keeps_512 ⟨0, "ab".toList ++ NUL :: "cd".toList⟩ (by decide)⟩

/-- C15 (as stated) fails: of 512 bytes followed by a zero byte `ReadString` returns all
512, one more than 511. -/
theorem C15_string_of_512_bytes :
    ReadString ⟨0, List.replicate 512 'a' ++ [NUL]⟩ = some (List.replicate 512 'a', ⟨513, []⟩) ∧
    (List.replicate 512 'a').length = 512 := by
  constructor
  · rw [ReadString_spec ⟨0, List.replicate 512 'a' ++ [NUL]⟩ (List.replicate 512 'a') []
      (by intro c hc; rw [List.eq_of_mem_replicate hc]; decide) rfl]
    rw [List.length_replicate, List.take_of_length_le (by rw [List.length_replicate])]
  · exact List.length_replicate _ _

theorem ReadDirectoryEntry_spec (fd : Stream) (record tail : List Char)
    (hlen : record.length = 18) (hrest : fd.rest = record ++ tail) :
    ReadDirectoryEntry fd = some (decodeRecord record, ⟨fd.pos + 18, tail⟩) := by
  obtain ⟨pos, rest⟩ := fd
  simp only at hrest
  subst hrest
  rcases record with _ | ⟨b0, _ | ⟨b1, _ | ⟨b2, _ | ⟨b3, _ | ⟨b4, _ | ⟨b5, _ | ⟨b6, _ | ⟨b7, _ | ⟨b8, _ | ⟨b9, _ | ⟨b10, _ | ⟨b11, _ | ⟨b12, _ | ⟨b13, _ | ⟨b14, _ | ⟨b15, _ | ⟨b16, _ | ⟨b17, _ | ⟨x, xs⟩⟩⟩⟩⟩⟩⟩⟩⟩⟩⟩⟩⟩⟩⟩⟩⟩⟩⟩ <;>
    simp only [List.length_cons, List.length_nil] at hlen <;> try omega
  simp [ReadDirectoryEntry, ReadUInt, ReadUShort, readUnsigned, Stream.skip, decodeRecord,
    Nat.add_assoc]

theorem ReadString_wf (fd : Stream) (s tail : List Char) (hs : WFString s)
    (hrest : fd.rest = s ++ NUL :: tail) :
    ReadString fd = some (s, ⟨fd.pos + (s.length + 1), tail⟩) ∧ charAt s 0 ≠ NUL := by
  obtain ⟨h1, h2, h3⟩ := hs
  constructor
  · rw [ReadString_spec fd s tail h2 hrest, List.take_of_length_le h3]
  · cases s with
    | nil => exact absurd rfl h1
    | cons c r => exact h2 c (List.mem_cons_self _ _)

theorem ReadString_end (fd : Stream) (tail : List Char) (hrest : fd.rest = NUL :: tail) :
    ReadString fd = some ([], ⟨fd.pos + 1, tail⟩) := by
  have := ReadString_spec fd [] tail (by simp) (by simpa using hrest)
  simpa using this

theorem encLeaves_length_pos (ls : List Leaf) : 1 ≤ (encLeaves ls).length := by
  cases ls with
  | nil => simp [encLeaves]
  | cons l ls => simp [encLeaves]; omega

theorem encPaths_length_pos (gs : List PathGroup) : 1 ≤ (encPaths gs).length := by
  cases gs with
  | nil => simp [encPaths]
  | cons g gs => simp [encPaths]; omega

theorem files_succ (extension path : List Char) (n : Nat) (fs : FS) (vpk : VPK) (fd : Stream) :
    ReadDirectory.files extension path (n + 1) fs vpk fd =
    match ReadString fd with
    | none => .error ParseStop.spin
    | some (fname, fd1) =>
      if charAt fname 0 = NUL then .ok (fs, vpk, fd1)
      else
        match ReadDirectoryEntry fd1 with
        | none => .error ParseStop.shortRead
        | some (dirEnt, fd2) =>
          match AddVPKFile fs vpk path fname extension dirEnt fd2.pos with
          | .error e => .error (ParseStop.fault e.1 e.2)
          | .ok (fs1, vpk1) =>
            ReadDirectory.files extension path n fs1 vpk1
              (if dirEnt.PreloadBytes > 0 then fd2.skip dirEnt.PreloadBytes else fd2) := by
  rfl

theorem paths_succ (extension : List Char) (n : Nat) (fs : FS) (vpk : VPK) (fd : Stream) :
    ReadDirectory.paths extension (n + 1) fs vpk fd =
    match ReadString fd with
    | none => .error ParseStop.spin
    | some (path, fd1) =>
      if charAt path 0 = NUL then .ok (fs, vpk, fd1)
      else
        match ReadDirectory.files extension path n fs vpk fd1 with
        | .error e => .error e
        | .ok (fs1, vpk1, fd2) => ReadDirectory.paths extension n fs1 vpk1 fd2 := by
  rfl

theorem extensions_succ (n : Nat) (fs : FS) (vpk : VPK) (fd : Stream) :
    ReadDirectory.extensions (n + 1) fs vpk fd =
    match ReadString fd with
    | none => .error ParseStop.spin
    | some (extension, fd1) =>
      if charAt extension 0 = NUL then .ok (fs, vpk, fd1)
      else
        match ReadDirectory.paths extension n fs vpk fd1 with
        | .error e => .error e
        | .ok (fs1, vpk1, fd2) => ReadDirectory.extensions n fs1 vpk1 fd2 := by
  rfl

theorem charAt_nil : charAt ([] : List Char) 0 = NUL := rfl

theorem files_end (extension path : List Char) (n : Nat) (fs : FS) (vpk : VPK)
    (fd fd1 : Stream) (h : ReadString fd = some ([], fd1)) :
    ReadDirectory.files extension path (n + 1) fs vpk fd = .ok (fs, vpk, fd1) := by
  rw [files_succ, h]
  show (if charAt ([] : List Char) 0 = NUL then _ else _) = _
  rw [if_pos charAt_nil]

theorem files_step (extension path : List Char) (n : Nat) (fs : FS) (vpk : VPK)
    (fd fd1 fd2 : Stream) (fname : List Char) (dirEnt : VPKDirectoryEntry)
    (h1 : ReadString fd = some (fname, fd1)) (hne : charAt fname 0 ≠ NUL)
    (h2 : ReadDirectoryEntry fd1 = some (dirEnt, fd2)) :
    ReadDirectory.files extension path (n + 1) fs vpk fd =
      match AddVPKFile fs vpk path fname extension dirEnt fd2.pos with
      | .error e => .error (ParseStop.fault e.1 e.2)
      | .ok (fs1, vpk1) =>
        ReadDirectory.files extension path n fs1 vpk1
          (if dirEnt.PreloadBytes > 0 then fd2.skip dirEnt.PreloadBytes else fd2) := by
  rw [files_succ, h1]
  show (if charAt fname 0 = NUL then _ else _) = _
  rw [if_neg hne, h2]

theorem paths_end (extension : List Char) (n : Nat) (fs : FS) (vpk : VPK)
    (fd fd1 : Stream) (h : ReadString fd = some ([], fd1)) :
    ReadDirectory.paths extension (n + 1) fs vpk fd = .ok (fs, vpk, fd1) := by
  rw [paths_succ, h]
  show (if charAt ([] : List Char) 0 = NUL then _ else _) = _
  rw [if_pos charAt_nil]

theorem paths_step (extension : List Char) (n : Nat) (fs : FS) (vpk : VPK)
    (fd fd1 : Stream) (path : List Char)
    (h1 : ReadString fd = some (path, fd1)) (hne : charAt path 0 ≠ NUL) :
    ReadDirectory.paths extension (n + 1) fs vpk fd =
      match ReadDirectory.files extension path n fs vpk fd1 with
      | .error e => .error e
      | .ok (fs1, vpk1, fd2) => ReadDirectory.paths extension n fs1 vpk1 fd2 := by
  rw [paths_succ, h1]
  show (if charAt path 0 = NUL then _ else _) = _
  rw [if_neg hne]

theorem extensions_end (n : Nat) (fs : FS) (vpk : VPK)
    (fd fd1 : Stream) (h : ReadString fd = some ([], fd1)) :
    ReadDirectory.extensions (n + 1) fs vpk fd = .ok (fs, vpk, fd1) := by
  rw [extensions_succ, h]
  show (if charAt ([] : List Char) 0 = NUL then _ else _) = _
  rw [if_pos charAt_nil]

theorem extensions_step (n : Nat) (fs : FS) (vpk : VPK)
    (fd fd1 : Stream) (extension : List Char)
    (h1 : ReadString fd = some (extension, fd1)) (hne : charAt extension 0 ≠ NUL) :
    ReadDirectory.extensions (n + 1) fs vpk fd =
      match ReadDirectory.paths extension n fs vpk fd1 with
      | .error e => .error e
      | .ok (fs1, vpk1, fd2) => ReadDirectory.extensions n fs1 vpk1 fd2 := by
  rw [extensions_succ, h1]
  show (if charAt extension 0 = NUL then _ else _) = _
  rw [if_neg hne]

theorem runCalls_cons (fs : FS) (vpk : VPK) (c : Call) (cs : List Call) :
    runCalls fs vpk (c :: cs) =
      match AddVPKFile fs vpk c.path c.fname c.extension c.dirEnt c.off with
      | .error e => .error e
      | .ok (fs1, vpk1) => runCalls fs1 vpk1 cs := rfl

theorem parsed_ok (fs : FS) (vpk : VPK) (fd : Stream) :
    parsed (.ok (fs, vpk)) fd = .ok (fs, vpk, fd) := rfl

theorem parsed_error (e : Fault × FS) (fd : Stream) :
    parsed (.error e) fd = .error (ParseStop.fault e.1 e.2) := rfl

theorem files_spec (extension path : List Char) :
    ∀ (ls : List Leaf), (∀ l ∈ ls, l.WF) →
      ∀ (n : Nat) (fs : FS) (vpk : VPK) (fd : Stream) (post : List Char),
        fd.rest = encLeaves ls ++ post → (encLeaves ls).length ≤ n →
        ReadDirectory.files extension path n fs vpk fd =
          parsed (runCalls fs vpk (leafCalls extension path fd.pos ls))
            ⟨fd.pos + (encLeaves ls).length, post⟩ := by
  intro ls
  induction ls with
  | nil =>
    intro _ n fs vpk fd post hrest hn
    have hl : (encLeaves []).length = 1 := rfl
    rw [hl] at hn
    cases n with
    | zero => omega
    | succ m =>
      have hread := ReadString_end fd post (by rw [hrest]; rfl)
      rw [files_end extension path m fs vpk fd _ hread, hl]
      rfl
  | cons l ls ih =>
    intro hwf n fs vpk fd post hrest hn
    obtain ⟨hname, hrec, hpre⟩ := hwf l (List.mem_cons_self _ _)
    have hwf' : ∀ l ∈ ls, l.WF := fun x hx => hwf x (List.mem_cons_of_mem _ hx)
    have hlen : (encLeaves (l :: ls)).length =
        l.fname.length + 1 + 18 + l.preload.length + (encLeaves ls).length := by
      simp [encLeaves, hrec]; omega
    cases n with
    | zero => omega
    | succ m =>
      have hrest1 : fd.rest =
          l.fname ++ NUL :: (l.record ++ (l.preload ++ (encLeaves ls ++ post))) := by
        rw [hrest]; simp [encLeaves]
      obtain ⟨hread, hne⟩ := ReadString_wf fd l.fname _ hname hrest1
      have hrde := ReadDirectoryEntry_spec ⟨fd.pos + (l.fname.length + 1),
        l.record ++ (l.preload ++ (encLeaves ls ++ post))⟩ l.record _ hrec rfl
      rw [files_step extension path m fs vpk fd _ _ l.fname _ hread hne hrde]
      have hcalls : leafCalls extension path fd.pos (l :: ls) =
          ⟨path, l.fname, extension, decodeRecord l.record, fd.pos + (l.fname.length + 1) + 18⟩ ::
            leafCalls extension path (fd.pos + (l.fname.length + 1) + 18 + l.preload.length)
              ls := rfl
      rw [hcalls, runCalls_cons]
      show (match AddVPKFile fs vpk path l.fname extension (decodeRecord l.record)
          (fd.pos + (l.fname.length + 1) + 18) with
        | .error e => _
        | .ok (fs1, vpk1) => _) = _
      cases hadd : AddVPKFile fs vpk path l.fname extension (decodeRecord l.record)
          (fd.pos + (l.fname.length + 1) + 18) with
      | error e => rfl
      | ok r =>
        obtain ⟨fs1, vpk1⟩ := r
        have hfd3 : (if (decodeRecord l.record).PreloadBytes > 0 then
              Stream.skip ⟨fd.pos + (l.fname.length + 1) + 18,
                l.preload ++ (encLeaves ls ++ post)⟩ (decodeRecord l.record).PreloadBytes
            else ⟨fd.pos + (l.fname.length + 1) + 18, l.preload ++ (encLeaves ls ++ post)⟩) =
            (⟨fd.pos + (l.fname.length + 1) + 18 + l.preload.length, encLeaves ls ++ post⟩ :
              Stream) := by
          rw [← hpre]
          by_cases hp : l.preload.length > 0
          · rw [if_pos hp]
            simp [Stream.skip]
          · rw [if_neg hp]
            have h0 : l.preload = [] := List.length_eq_zero.mp (by omega)
            simp [h0]
        show ReadDirectory.files extension path m fs1 vpk1 _ = _
        rw [hfd3, ih hwf' m fs1 vpk1 _ post rfl (by omega), hlen]
        show parsed _ ⟨fd.pos + (l.fname.length + 1) + 18 + l.preload.length +
          (encLeaves ls).length, post⟩ = parsed _ _
        have hp : fd.pos + (l.fname.length + 1) + 18 + l.preload.length +
            (encLeaves ls).length =
            fd.pos + (l.fname.length + 1 + 18 + l.preload.length + (encLeaves ls).length) := by
          omega
        rw [hp]

theorem runCalls_append (cs ds : List Call) :
    ∀ (fs : FS) (vpk : VPK),
      runCalls fs vpk (cs ++ ds) =
        match runCalls fs vpk cs with
        | .error e => .error e
        | .ok (fs1, vpk1) => runCalls fs1 vpk1 ds := by
  induction cs with
  | nil => intro fs vpk; rfl
  | cons c cs ih =>
    intro fs vpk
    rw [List.cons_append, runCalls_cons, runCalls_cons]
    cases AddVPKFile fs vpk c.path c.fname c.extension c.dirEnt c.off with
    | error e => rfl
    | ok r => exact ih r.1 r.2

theorem paths_spec (extension : List Char) :
    ∀ (gs : List PathGroup), (∀ g ∈ gs, g.WF) →
      ∀ (n : Nat) (fs : FS) (vpk : VPK) (fd : Stream) (post : List Char),
        fd.rest = encPaths gs ++ post → (encPaths gs).length ≤ n →
        ReadDirectory.paths extension n fs vpk fd =
          parsed (runCalls fs vpk (pathCalls extension fd.pos gs))
            ⟨fd.pos + (encPaths gs).length, post⟩ := by
  intro gs
  induction gs with
  | nil =>
    intro _ n fs vpk fd post hrest hn
    have hl : (encPaths []).length = 1 := rfl
    rw [hl] at hn
    cases n with
    | zero => omega
    | succ m =>
      have hread := ReadString_end fd post (by rw [hrest]; rfl)
      rw [paths_end extension m fs vpk fd _ hread, hl]
      rfl
  | cons g gs ih =>
    intro hwf n fs vpk fd post hrest hn
    obtain ⟨hname, hleaves⟩ := hwf g (List.mem_cons_self _ _)
    have hwf' : ∀ g ∈ gs, g.WF := fun x hx => hwf x (List.mem_cons_of_mem _ hx)
    have hlen : (encPaths (g :: gs)).length =
        g.path.length + 1 + (encLeaves g.leaves).length + (encPaths gs).length := by
      simp [encPaths]; omega
    have h1 := encPaths_length_pos gs
    cases n with
    | zero => omega
    | succ m =>
      have hrest1 : fd.rest =
          g.path ++ NUL :: (encLeaves g.leaves ++ (encPaths gs ++ post)) := by
        rw [hrest]; simp [encPaths]
      obtain ⟨hread, hne⟩ := ReadString_wf fd g.path _ hname hrest1
      rw [paths_step extension m fs vpk fd _ g.path hread hne]
      rw [files_spec extension g.path g.leaves hleaves m fs vpk _ (encPaths gs ++ post) rfl
        (by omega)]
      have hcalls : pathCalls extension fd.pos (g :: gs) =
          leafCalls extension g.path (fd.pos + (g.path.length + 1)) g.leaves ++
            pathCalls extension (fd.pos + (g.path.length + 1) + (encLeaves g.leaves).length)
              gs := rfl
      rw [hcalls, runCalls_append]
      show (match parsed (runCalls fs vpk (leafCalls extension g.path
          (fd.pos + (g.path.length + 1)) g.leaves)) _ with
        | .error e => _
        | .ok (fs1, vpk1, fd2) => _) = _
      cases hrun : runCalls fs vpk
          (leafCalls extension g.path (fd.pos + (g.path.length + 1)) g.leaves) with
      | error e => rfl
      | ok r =>
        obtain ⟨fs1, vpk1⟩ := r
        show ReadDirectory.paths extension m fs1 vpk1 _ = _
        rw [ih hwf' m fs1 vpk1 _ post rfl (by omega), hlen]
        show parsed _ ⟨fd.pos + (g.path.length + 1) + (encLeaves g.leaves).length +
          (encPaths gs).length, post⟩ = parsed _ _
        have hp : fd.pos + (g.path.length + 1) + (encLeaves g.leaves).length +
            (encPaths gs).length =
            fd.pos + (g.path.length + 1 + (encLeaves g.leaves).length + (encPaths gs).length) := by
          omega
        rw [hp]

theorem extensions_spec :
    ∀ (gs : List ExtGroup), (∀ g ∈ gs, g.WF) →
      ∀ (n : Nat) (fs : FS) (vpk : VPK) (fd : Stream) (post : List Char),
        fd.rest = encExts gs ++ post → (encExts gs).length ≤ n →
        ReadDirectory.extensions n fs vpk fd =
          parsed (runCalls fs vpk (extCalls fd.pos gs))
            ⟨fd.pos + (encExts gs).length, post⟩ := by
  intro gs
  induction gs with
  | nil =>
    intro _ n fs vpk fd post hrest hn
    have hl : (encExts []).length = 1 := rfl
    rw [hl] at hn
    cases n with
    | zero => omega
    | succ m =>
      have hread := ReadString_end fd post (by rw [hrest]; rfl)
      rw [extensions_end m fs vpk fd _ hread, hl]
      rfl
  | cons g gs ih =>
    intro hwf n fs vpk fd post hrest hn
    obtain ⟨hname, hpaths⟩ := hwf g (List.mem_cons_self _ _)
    have hwf' : ∀ g ∈ gs, g.WF := fun x hx => hwf x (List.mem_cons_of_mem _ hx)
    have hlen : (encExts (g :: gs)).length =
        g.extension.length + 1 + (encPaths g.paths).length + (encExts gs).length := by
      simp [encExts]; omega
    cases n with
    | zero => omega
    | succ m =>
      have hrest1 : fd.rest =
          g.extension ++ NUL :: (encPaths g.paths ++ (encExts gs ++ post)) := by
        rw [hrest]; simp [encExts]
      obtain ⟨hread, hne⟩ := ReadString_wf fd g.extension _ hname hrest1
      rw [extensions_step m fs vpk fd _ g.extension hread hne]
      rw [paths_spec g.extension g.paths hpaths m fs vpk _ (encExts gs ++ post) rfl (by omega)]
      have hcalls : extCalls fd.pos (g :: gs) =
          pathCalls g.extension (fd.pos + (g.extension.length + 1)) g.paths ++
            extCalls (fd.pos + (g.extension.length + 1) + (encPaths g.paths).length) gs := rfl
      rw [hcalls, runCalls_append]
      show (match parsed (runCalls fs vpk (pathCalls g.extension
          (fd.pos + (g.extension.length + 1)) g.paths)) _ with
        | .error e => _
        | .ok (fs1, vpk1, fd2) => _) = _
      cases hrun : runCalls fs vpk
          (pathCalls g.extension (fd.pos + (g.extension.length + 1)) g.paths) with
      | error e => rfl
      | ok r =>
        obtain ⟨fs1, vpk1⟩ := r
        show ReadDirectory.extensions m fs1 vpk1 _ = _
        rw [ih hwf' m fs1 vpk1 _ post rfl (by omega), hlen]
        show parsed _ ⟨fd.pos + (g.extension.length + 1) + (encPaths g.paths).length +
          (encExts gs).length, post⟩ = parsed _ _
        have hp : fd.pos + (g.extension.length + 1) + (encPaths g.paths).length +
            (encExts gs).length =
            fd.pos + (g.extension.length + 1 + (encPaths g.paths).length +
              (encExts gs).length) := by
          omega
        rw [hp]

theorem headerDataOffset_eq (version treeLength : Nat) (hT : treeLength < U32) :
    headerDataOffset version treeLength = 12 + (if version = 2 then 16 else 0) + treeLength := by
  unfold headerDataOffset
  apply Nat.mod_eq_of_lt
  unfold U32 at hT
  unfold U64
  split <;> omega

/-- On a directory section that encodes extension groups, each holding path groups,
each holding leaves (strings not empty, without zero byte, of at most 512 bytes; each leaf
followed by its 18-byte record and as many preload bytes as the record says; every group
closed by an empty string), `ReadDirectory` makes the calls of `AddVPKFile` of the leaves in
the order of the encoding, each with the path, filename, extension and record of the leaf
and with the position behind the record, up to a call that leaves defined behaviour;
when the calls return, it returns with their result and with the cursor at the end of the
section, which is `vpk.DataOffset` when the section starts behind the header and
`TreeLength` is its length. -/
theorem ReadDirectory_section (gs : List ExtGroup) (hwf : ∀ g ∈ gs, g.WF)
    (fs : FS) (vpk : VPK) (fd : Stream) (post : List Char)
    (hrest : fd.rest = encExts gs ++ post) :
    ReadDirectory fs vpk fd =
        parsed (runCalls fs vpk (extCalls fd.pos gs)) ⟨fd.pos + (encExts gs).length, post⟩ ∧
      (∀ fs1 vpk1, runCalls fs vpk (extCalls fd.pos gs) = .ok (fs1, vpk1) →
        ReadDirectory fs vpk fd = .ok (fs1, vpk1, ⟨fd.pos + (encExts gs).length, post⟩)) ∧
      ∀ version, (encExts gs).length < U32 → fd.pos = 12 + (if version = 2 then 16 else 0) →
        fd.pos + (encExts gs).length = headerDataOffset version (encExts gs).length := by
  have h1 : ReadDirectory fs vpk fd =
      parsed (runCalls fs vpk (extCalls fd.pos gs)) ⟨fd.pos + (encExts gs).length, post⟩ := by
    unfold ReadDirectory
    apply extensions_spec gs hwf _ fs vpk fd post hrest
    rw [hrest, List.length_append]
    omega
  refine ⟨h1, ?_, ?_⟩
  · intro fs1 vpk1 hrun
    rw [h1, hrun]
    rfl
  · intro version hlen hpos
    rw [headerDataOffset_eq version _ hlen, hpos]

theorem example_wf : ∀ g ∈ exampleGroups, g.WF := by
  intro g hg
  simp only [exampleGroups, List.mem_singleton] at hg
  subst hg
  refine ⟨⟨by decide, by decide, by decide⟩, ?_⟩
  intro p hp
  simp only [List.mem_singleton] at hp
  subst hp
  refine ⟨⟨by decide, by decide, by decide⟩, ?_⟩
  intro l hl
  simp only [List.mem_singleton] at hl
  subst hl
  exact ⟨⟨by decide, by decide, by decide⟩, by decide, by decide⟩

theorem ReadDirectory_section_example :
    (∀ g ∈ exampleGroups, g.WF) ∧
    (⟨12, encExts exampleGroups ++ "hello world".toList⟩ : Stream).rest =
      encExts exampleGroups ++ "hello world".toList ∧
    ReadDirectory InitFileSystem vpk40 ⟨12, encExts exampleGroups ++ "hello world".toList⟩ =
      parsed (runCalls InitFileSystem vpk40 (extCalls 12 exampleGroups))
        ⟨12 + (encExts exampleGroups).length, "hello world".toList⟩ ∧
    ReadDirectory InitFileSystem vpk40 ⟨12, encExts exampleGroups ++ "hello world".toList⟩ =
      .ok (⟨.dir ['/'] 0 [.dir "docs".toList 2
          [.file "readme.txt".toList 1 ⟨11, 0, 0, 0x7fff, 11, 40⟩]], 2⟩, vpk40,
        ⟨49, "hello world".toList⟩) :=
  ⟨example_wf, rfl,
    (ReadDirectory_section exampleGroups example_wf InitFileSystem vpk40
      ⟨12, encExts exampleGroups ++ "hello world".toList⟩ "hello world".toList rfl).1,
    (ReadDirectory_section exampleGroups example_wf InitFileSystem vpk40
      ⟨12, encExts exampleGroups ++ "hello world".toList⟩ "hello world".toList rfl).2.1
        _ _ rfl⟩

theorem strstr_some : ∀ (h n : List Char) (k : Nat), strstr h n = some k →
    h = h.take k ++ n ++ h.drop (k + n.length) := by
  intro h
  induction h with
  | nil =>
    intro n k hk
    simp only [strstr] at hk
    split at hk
    · rename_i hn
      subst hn
      simp
    · cases hk
  | cons c t ih =>
    intro n k hk
    simp only [strstr] at hk
    split at hk
    · rename_i hp
      injection hk with hk
      subst hk
      obtain ⟨s, hs⟩ := List.isPrefixOf_iff_prefix.mp hp
      rw [← hs]
      simp
    · cases ht : strstr t n with
      | none => rw [ht] at hk; cases hk
      | some j =>
        rw [ht] at hk
        simp only [Option.map_some'] at hk
        injection hk with hk
        subst hk
        have := ih n j ht
        rw [show j + 1 + n.length = (j + n.length) + 1 by omega]
        simp only [List.take_succ_cons, List.drop_succ_cons, List.cons_append]
        rw [← this]

theorem strstr_none : ∀ (h n : List Char), strstr h n = none → ¬ n <:+: h := by
  intro h
  induction h with
  | nil =>
    intro n hk hin
    simp only [strstr] at hk
    split at hk
    · cases hk
    · rename_i hn
      exact hn (List.eq_nil_of_infix_nil hin)
  | cons c t ih =>
    intro n hk hin
    simp only [strstr] at hk
    split at hk
    · cases hk
    · rename_i hp
      cases ht : strstr t n with
      | some j => rw [ht] at hk; simp at hk
      | none =>
        rcases List.infix_cons_iff.mp hin with h1 | h1
        · exact hp (List.isPrefixOf_iff_prefix.mpr h1)
        · exact ih n ht h1

theorem strstr_first : ∀ (h n : List Char) (k : Nat), strstr h n = some k →
    ∀ j, j < k → ¬ n <+: h.drop j := by
  intro h
  induction h with
  | nil =>
    intro n k hk j hj
    simp only [strstr] at hk
    split at hk
    · injection hk with hk
      omega
    · cases hk
  | cons c t ih =>
    intro n k hk j hj
    simp only [strstr] at hk
    split at hk
    · injection hk with hk
      omega
    · rename_i hp
      cases ht : strstr t n with
      | none => rw [ht] at hk; cases hk
      | some k1 =>
        rw [ht] at hk
        simp only [Option.map_some'] at hk
        injection hk with hk
        subst hk
        cases j with
        | zero =>
          intro hpre
          exact hp (List.isPrefixOf_iff_prefix.mpr hpre)
        | succ j1 =>
          rw [List.drop_succ_cons]
          exact ih n k1 ht j1 (by omega)

theorem decimal_length (n e : Nat) (h : n < 10 ^ e) (he : 0 < e) : (decimal n).length ≤ e :=
  Nat.toDigitsCore_length 10 (by decide) (n + 1) n e h he

theorem padZero_length (w : Nat) (ds : List Char) (h : ds.length ≤ w) :
    (padZero w ds).length = w := by
  unfold padZero
  rw [List.length_append, List.length_replicate]
  omega

theorem snprintf4_fits (n : Nat) (a b number c : List Char)
    (h : a.length + b.length + number.length + c.length + 1 ≤ n) :
    snprintf4 n a b number c = a ++ b ++ number ++ c := by
  unfold snprintf4
  apply List.take_of_length_le
  simp only [List.length_append]
  omega

/-- With `PathLen` the length of `Path` and an index below 1000, `OpenVPKArchive` fails
without trying a name when the filename holds no `dir`, and otherwise tries, in this order,
the directory followed by the filename with the first `dir` replaced by the numeral of
`i mod 1000` padded to three digits, of `i mod 100` padded to two digits, and of `i`
unpadded; it returns the descriptor of the first name that opens and tries no later name,
and -1 when none opens. -/
theorem OpenVPKArchive_candidates (v : ArchiveName) (openf : List Char → Int) (i : Nat)
    (hlen : v.PathLen = v.Path.length) (hi : i < 1000) :
    (strstr v.FileName "dir".toList = none →
        ¬ "dir".toList <:+: v.FileName ∧ OpenVPKArchive v openf i = (-1, [])) ∧
    (∀ k, strstr v.FileName "dir".toList = some k →
        v.FileName = v.FileName.take k ++ "dir".toList ++ v.FileName.drop (k + 3) ∧
        (∀ j, j < k → ¬ "dir".toList <+: v.FileName.drop j) ∧
        OpenVPKArchive v openf i = firstOpen openf (candidatesCode v k i)) := by
  constructor
  · intro hk
    refine ⟨strstr_none _ _ hk, ?_⟩
    unfold OpenVPKArchive
    rw [hk]
  · intro k hk
    refine ⟨strstr_some _ _ _ hk, strstr_first _ _ _ hk, ?_⟩
    have h3 : (padZero 3 (decimal (i % 1000))).length = 3 :=
      padZero_length 3 _ (decimal_length _ 3 (by omega) (by decide))
    have h2 : (padZero 2 (decimal (i % 100))).length = 2 :=
      padZero_length 2 _ (decimal_length _ 2 (by omega) (by decide))
    have h1 : (decimal i).length ≤ 3 := decimal_length _ 3 (by omega) (by decide)
    unfold OpenVPKArchive
    rw [hk]
    simp only [hlen]
    rw [snprintf4_fits _ _ _ _ _ (by rw [h3]), snprintf4_fits _ _ _ _ _ (by rw [h2]; omega),
      snprintf4_fits _ _ _ _ _ (by omega)]
    simp only [candidatesCode, firstOpen]
    split
    · rfl
    · split
      · rfl
      · split
        · rfl
        · rfl

theorem OpenVPKArchive_candidates_example :
    (strstr pak01.FileName "dir".toList = none →
        ¬ "dir".toList <:+: pak01.FileName ∧ OpenVPKArchive pak01 only007 7 = (-1, [])) ∧
    (∀ k, strstr pak01.FileName "dir".toList = some k →
        pak01.FileName = pak01.FileName.take k ++ "dir".toList ++ pak01.FileName.drop (k + 3) ∧
        (∀ j, j < k → ¬ "dir".toList <+: pak01.FileName.drop j) ∧
        OpenVPKArchive pak01 only007 7 = firstOpen only007 (candidatesCode pak01 k 7)) :=
  OpenVPKArchive_candidates pak01 only007 7 (by decide) (by decide)

/-- C14 (failing input): for the index 123 and the archive `/g/pak01_dir.vpk` of which only
the part `/g/pak01_23.vpk` exists, `OpenVPKArchive` tries `/g/pak01_123.vpk` and then
returns the descriptor of `/g/pak01_23.vpk`, the part of the index 23, while the three names
of the specification are all `/g/pak01_123.vpk`, none of which opens; for the index 1234
the names tried are `/g/pak01_234.vpk`, `/g/pak01_34.vpk` and the cut `/g/pak01_1234.vp`,
none of them a name of the specification. -/
theorem C14_index_123_tries_23 :
    strstr pak01.FileName "dir".toList = some 6 ∧
    OpenVPKArchive pak01 only23 123 =
      (7, ["/g/pak01_123.vpk".toList, "/g/pak01_23.vpk".toList]) ∧
    candidatesSpec pak01 6 123 =
      ["/g/pak01_123.vpk".toList, "/g/pak01_123.vpk".toList, "/g/pak01_123.vpk".toList] ∧
    firstOpen only23 (candidatesSpec pak01 6 123) =
      (-1, ["/g/pak01_123.vpk".toList, "/g/pak01_123.vpk".toList, "/g/pak01_123.vpk".toList]) ∧
    OpenVPKArchive pak01 (fun _ => -1) 1234 =
      (-1, ["/g/pak01_234.vpk".toList, "/g/pak01_34.vpk".toList, "/g/pak01_1234.vp".toList]) ∧
    candidatesSpec pak01 6 1234 =
      ["/g/pak01_1234.vpk".toList, "/g/pak01_1234.vpk".toList, "/g/pak01_1234.vpk".toList] :=
  ⟨by decide, by decide, by decide, by decide, by decide, by decide⟩

/-- C13 (failing input): a record with the archive index 0xFFFF leaves `ArchiveFDCount` at 0,
since 0xFFFF + 1 is stored in 16 bits, where the specification puts it at 65536; the file is in the
tree with that index, `OpenAllVPKArchives` allocates a table of no entries, and the lookup
`ArchiveFDs[0xFFFF]` that `vpk_read` of the file makes lies outside the table.  With the
index 0xFFFE the count is 0xFFFF. -/
theorem C13_index_0xFFFF_wraps_count :
    AddVPKFile InitFileSystem vpk40 " ".toList "a".toList "b".toList recLastIndex 30 =
      .ok (fsLastIndex, vpk40) ∧
    vpk40.ArchiveFDCount = 0 ∧
    deref fsLastIndex.rootEntry [0] = some (.file "a.b".toList 1 ⟨4, 0, 0, 65535, 4, 0⟩) ∧
    OpenAllVPKArchives pak01 (fun _ => 7) vpk40 = (0x7fff, vpk40) ∧
    GetVPKArchive vpk40 65535 = none ∧
    vpk_read fsLastIndex vpk40 (fun _ => some "abcd".toList) "/a.b".toList [] 4 0 =
      .error Fault.tableIndex ∧
    AddVPKFile.count vpk40 ⟨0, 0, 65534, 0, 4, 0xffff⟩ = 65535 :=
  ⟨rfl, rfl, rfl, rfl, rfl, rfl, rfl⟩

theorem GetEntryIn_header (es : List DirectoryEntry) (name : List Char) :
    GetEntryIn es name = (es.map header).findIdx? (fun h => decide (h.1 = name)) := by
  rw [List.findIdx?_map]
  rfl

theorem GetEntryIn_longer {es es' : List DirectoryEntry} {name : List Char} {i : Nat}
    (h : GetEntryIn es name = some i) (hp : es.map header <+: es'.map header) :
    GetEntryIn es' name = some i := by
  rw [GetEntryIn_header] at h ⊢
  obtain ⟨s, hs⟩ := hp
  rw [← hs, List.findIdx?_append, h]
  rfl

theorem walk_false_extends {fs fs' : FS} (hext : Extends fs.rootEntry fs'.rootEntry) :
    ∀ (toks : List (List Char × Bool)) (ent : Ptr) (e : DirectoryEntry) (r : Ptr),
      deref fs.rootEntry ent = some e → (walk false fs ent toks).2 = some r →
      (walk false fs' ent toks).2 = some r ∧ ∃ x, deref fs.rootEntry r = some x := by
  intro toks
  induction toks with
  | nil =>
    intro ent e r he h
    simp only [walk] at h ⊢
    injection h with h
    subst h
    exact ⟨rfl, e, he⟩
  | cons t rest ih =>
    intro ent e r he h
    obtain ⟨name, last⟩ := t
    obtain ⟨e', he', hh, hpre⟩ := hext ent e he
    simp only [walk, Data_of_deref he] at h
    simp only [walk, Data_of_deref he']
    cases hg : GetEntryIn e.Entries name with
    | none => rw [hg] at h; simp at h
    | some i =>
      rw [hg] at h
      rw [GetEntryIn_longer hg hpre]
      obtain ⟨c, hc, _⟩ := GetEntryIn_some hg
      have hdc : deref fs.rootEntry (ent ++ [i]) = some c := by rw [deref_snoc i he]; exact hc
      obtain ⟨c', hc', hhc, _⟩ := hext _ c hdc
      have hk : c'.IsDirectory = c.IsDirectory := congrArg (fun x => x.2.2.1) hhc
      simp only [hdc, hc', hk] at h ⊢
      cases last with
      | true =>
        simp only [Bool.not_true, Bool.false_and, Bool.false_eq_true, if_false, if_true] at h ⊢
        injection h with h
        subst h
        exact ⟨rfl, c, hdc⟩
      | false =>
        cases hd : c.IsDirectory with
        | false => rw [hd] at h; simp at h
        | true =>
          rw [hd] at h
          simp only [Bool.not_false, Bool.not_true, Bool.and_false, Bool.false_eq_true,
            if_false] at h ⊢
          exact ih _ c r hdc h

theorem mkdirs_extends (fs : FS) (path : List Char) :
    Extends fs.rootEntry (GetEntryMkdirs fs path true).1.rootEntry :=
  mkdirs_inv (fun _ s => Extends fs.rootEntry s.rootEntry) (fun _ _ h => h)
    (fun _ _ _ _ h _ _ => h.trans (insert_extends _ _ _)) fs path (Extends.refl _)

theorem AddEntry_extends {fs fs' : FS} {path : List Char} {entry : DirectoryEntry} {r : Ptr}
    (h : AddEntry fs path entry = .ok (fs', r)) : Extends fs.rootEntry fs'.rootEntry := by
  obtain ⟨ent, n, id, es, _, _, hroot, _, _⟩ := AddEntry_ok h
  rw [hroot]
  exact (mkdirs_extends fs path).trans (insert_extends _ _ _)

theorem Insertion.extends {fs fs' : FS} (hs : Insertion fs fs') :
    Extends fs.rootEntry fs'.rootEntry := by
  cases hs with
  | addFile path name file ent h =>
    unfold AddFile at h
    have h2 : Extends ({ fs with IDCount := (fs.IDCount + 1) % U64 } : FS).rootEntry
        fs'.rootEntry := AddEntry_extends h
    exact h2
  | addDirectory path name ent h =>
    unfold AddDirectory at h
    have h2 : Extends ({ fs with IDCount := (fs.IDCount + 1) % U64 } : FS).rootEntry
        fs'.rootEntry := AddEntry_extends h
    exact h2
  | mkdirs path o h =>
    have := mkdirs_extends fs path
    rw [h] at this
    exact this

/-- C19: after a call of `AddFile`, `AddDirectory` or `GetEntryMkdirs(path, true)` that
returns, every path `q` that `GetEntry` resolved before resolves to the same address, and
the entry there has the name, identifier, kind and file record it had; of a directory, the
children it had are the first of its children, in the order they had. -/
theorem C19_insertions_keep_resolutions (fs fs' : FS) (hs : Insertion fs fs') (q : List Char)
    (r : Ptr) (hq : (GetEntry fs q).2 = some r) :
    ∃ e e', deref fs.rootEntry r = some e ∧ (GetEntry fs' q).2 = some r ∧
      deref fs'.rootEntry r = some e' ∧ e'.Name = e.Name ∧ e'.ID = e.ID ∧
      e'.IsDirectory = e.IsDirectory ∧ e'.FileData = e.FileData ∧
      e.Entries.map header <+: e'.Entries.map header := by
  have hext := hs.extends
  rw [GetEntry, GetEntryMkdirs_eq_walk] at hq
  obtain ⟨root, hroot⟩ : ∃ x, deref fs.rootEntry [] = some x := ⟨_, deref_nil _⟩
  obtain ⟨h1, e, he⟩ := walk_false_extends hext _ [] root r hroot hq
  obtain ⟨e', he', hh, hpre⟩ := hext r e he
  refine ⟨e, e', he, ?_, he', header_Name hh, header_ID hh, congrArg (fun x => x.2.2.1) hh,
    congrArg (fun x => x.2.2.2) hh, hpre⟩
  rw [GetEntry, GetEntryMkdirs_eq_walk]
  exact h1

theorem C19_insertions_keep_resolutions_witness :
    Insertion fsLastIndex fsLastIndexXY ∧ (GetEntry fsLastIndex "/a.b".toList).2 = some [0] ∧
    ∃ e e', deref fsLastIndex.rootEntry [0] = some e ∧
      (GetEntry fsLastIndexXY "/a.b".toList).2 = some [0] ∧
      deref fsLastIndexXY.rootEntry [0] = some e' ∧ e'.Name = e.Name ∧ e'.ID = e.ID ∧
      e'.IsDirectory = e.IsDirectory ∧ e'.FileData = e.FileData ∧
      e.Entries.map header <+: e'.Entries.map header :=
  ⟨Insertion.addDirectory "/x".toList "y".toList [1, 0] rfl, rfl,
    C19_insertions_keep_resolutions fsLastIndex fsLastIndexXY
      (Insertion.addDirectory "/x".toList "y".toList [1, 0] rfl) "/a.b".toList [0] rfl⟩

theorem toInt32_of_range (i : Int) (h0 : 0 ≤ i) (h1 : i < 2147483648) : toInt32 i = i := by
  unfold toInt32 U32
  have : i % ((4294967296 : Nat) : Int) = i := Int.emod_eq_of_lt h0 (by omega)
  rw [this, if_pos h1]

theorem toU64_natCast (n : Nat) (h : n < 9223372036854775808) : toU64 (n : Int) = n := by
  have := toU64_of_range (n : Int) (by omega) (by omega)
  exact_mod_cast this

theorem skip_skip (fd : Stream) (a b : Nat) : (fd.skip a).skip b = fd.skip (a + b) := by
  simp only [Stream.skip, List.drop_drop, Nat.add_assoc]

theorem tokensAux_plain : ∀ (s acc : List Char), '/' ∉ s →
    tokensAux s acc = if acc ++ s = [] then [] else [(acc ++ s, true)] := by
  intro s
  induction s with
  | nil =>
    intro acc _
    simp [tokensAux]
  | cons c r ih =>
    intro acc h
    have hc : c ≠ '/' := fun hc => h (by rw [hc]; exact List.mem_cons_self _ _)
    have hr : '/' ∉ r := fun hr => h (List.mem_cons_of_mem _ hr)
    simp only [tokensAux, if_neg hc]
    rw [ih (acc ++ [c]) hr]
    simp

theorem tokensAux_seg : ∀ (s acc r : List Char), '/' ∉ s → acc ++ s ≠ [] →
    tokensAux (s ++ '/' :: r) acc = (acc ++ s, false) :: tokensAux r [] := by
  intro s
  induction s with
  | nil =>
    intro acc r _ hne
    have : acc ≠ [] := by simpa using hne
    simp [tokensAux, this]
  | cons c t ih =>
    intro acc r h hne
    have hc : c ≠ '/' := fun hc => h (by rw [hc]; exact List.mem_cons_self _ _)
    have ht : '/' ∉ t := fun ht => h (List.mem_cons_of_mem _ ht)
    rw [List.cons_append]
    simp only [tokensAux, if_neg hc]
    rw [ih (acc ++ [c]) r ht (by simp)]
    simp

theorem tokens_plain (s : List Char) (h : '/' ∉ s) (hne : s ≠ []) : tokens s = [(s, true)] := by
  unfold tokens
  rw [tokensAux_plain s [] h]
  simp [hne]

theorem tokens_two (p name : List Char) (hp : '/' ∉ p) (hpne : p ≠ []) (hn : '/' ∉ name)
    (hnne : name ≠ []) : tokens ('/' :: p ++ '/' :: name) = [(p, false), (name, true)] := by
  rw [List.cons_append, tokens_slash]
  unfold tokens
  rw [tokensAux_seg p [] name hp (by simpa using hpne), tokensAux_plain name [] hn]
  simp [hnne]

theorem isSpaceMarker_false (s : List Char) (h : ∀ c ∈ s, c ≠ NUL) (hm : s ≠ [' ']) :
    isSpaceMarker s = false := by
  unfold isSpaceMarker
  rw [cstr_of_noNUL s h]
  rw [decide_eq_false_iff_not]
  rintro ⟨h0, h1⟩
  cases s with
  | nil => exact absurd h0 (by decide)
  | cons x t =>
    cases t with
    | nil =>
      apply hm
      have : x = ' ' := h0
      rw [this]
    | cons y u =>
      have : y = NUL := h1
      exact h y (by simp) this

theorem littleEndian_lt : ∀ bs : List Char, littleEndian bs < 256 ^ bs.length := by
  intro bs
  induction bs with
  | nil => simp [littleEndian]
  | cons b bs ih =>
    simp only [littleEndian, List.length_cons, Nat.pow_succ]
    have := Nat.mod_lt b.toNat (show 256 > 0 by decide)
    omega

theorem readUnsigned_append (n pos : Nat) (bs rest : List Char) (h : bs.length = n) :
    readUnsigned n ⟨pos, bs ++ rest⟩ = some (littleEndian bs, ⟨pos + n, rest⟩) := by
  unfold readUnsigned
  subst h
  simp [Stream.skip]

theorem ReadVPKHeader_append (sig ver tl rest : List Char) (hs : sig.length = 4)
    (hv : ver.length = 4) (ht : tl.length = 4) :
    ReadVPKHeader ⟨0, sig ++ ver ++ tl ++ rest⟩ =
      some (⟨littleEndian sig, littleEndian ver, littleEndian tl⟩, ⟨12, rest⟩) := by
  unfold ReadVPKHeader ReadUInt
  rw [List.append_assoc, List.append_assoc, readUnsigned_append 4 0 sig _ hs]
  simp only
  rw [readUnsigned_append 4 _ ver _ hv]
  simp only
  rw [readUnsigned_append 4 _ tl _ ht]

/-- The start of the program on a version-1 archive. -/
theorem load_v1 (vpk : VPK) (sig ver tl rest : List Char) (hs : sig.length = 4)
    (hv : ver.length = 4) (ht : tl.length = 4) (hsig : littleEndian sig = VPKSig)
    (hver : littleEndian ver = 1) :
    main.load vpk ⟨0, sig ++ ver ++ tl ++ rest⟩ =
      match ReadDirectory InitFileSystem
          { vpk with DataOffset := headerDataOffset 1 (littleEndian tl) } ⟨12, rest⟩ with
      | .error e => .stop e
      | .ok (fs, vpk2, fd3) => .loaded fs vpk2 fd3 := by
  unfold main.load
  rw [ReadVPKHeader_append sig ver tl rest hs hv ht, hsig, hver]
  simp only []
  rw [if_neg (not_not.mpr rfl), if_neg (by decide), if_neg (by decide)]

theorem WFString_noNUL {s : List Char} (h : WFString s) : ∀ c ∈ s, c ≠ NUL := h.2.1

theorem name_noNUL {n e : List Char} (hn : WFString n) (he : WFString e) :
    ∀ c ∈ n ++ '.' :: e, c ≠ NUL := by
  intro c hc
  rcases List.mem_append.mp hc with h | h
  · exact hn.2.1 c h
  · rcases List.mem_cons.mp h with h | h
    · rw [h]; decide
    · exact he.2.1 c h

theorem name_noSlash {n e : List Char} (hn : '/' ∉ n) (he : '/' ∉ e) :
    '/' ∉ n ++ '.' :: e := by
  intro hc
  rcases List.mem_append.mp hc with h | h
  · exact hn h
  · rcases List.mem_cons.mp h with h | h
    · exact absurd h (by decide)
    · exact he h

/-- The call of `AddVPKFile` on the empty tree with a path, a filename and an extension that
are plain names. -/
theorem AddVPKFile_plain (vpk : VPK) (e p n : List Char) (d : VPKDirectoryEntry) (off : Nat)
    (he : WFString e) (hp : WFString p) (hn : WFString n) (hps : '/' ∉ p)
    (hem : e ≠ [' ']) (hpm : p ≠ [' ']) (hnm : n ≠ [' ']) :
    AddVPKFile InitFileSystem vpk p n e d off =
      .ok (⟨.dir ['/'] 0 [.dir p 2 [.file (n ++ '.' :: e) 1 (AddVPKFile.file vpk d off)]], 2⟩,
        { vpk with ArchiveFDCount := AddVPKFile.count vpk d }) := by
  have hname : snprintf3 2048 n ['.'] e = n ++ '.' :: e := by
    unfold snprintf3
    rw [cstr_of_noNUL n hn.2.1, cstr_of_noNUL e he.2.1,
      cstr_of_noNUL ['.'] (by intro c hc; rw [List.mem_singleton.mp hc]; decide)]
    rw [List.take_of_length_le]
    · simp
    · have h1 := hn.2.2
      have h2 := he.2.2
      simp only [List.length_append, List.length_cons, List.length_nil]
      omega
  unfold AddVPKFile
  simp only [isSpaceMarker_false e he.2.1 hem, isSpaceMarker_false p hp.2.1 hpm,
    isSpaceMarker_false n hn.2.1 hnm, Bool.false_eq_true, if_false, hname]
  unfold AddFile AddEntry
  simp only [GetEntryMkdirs_eq_walk, cstr_of_noNUL p hp.2.1, tokens_plain p hps hp.1,
    cstr_of_noNUL _ (name_noNUL hn he)]
  have h1 : (InitFileSystem.IDCount + 1) % U64 = 1 := by decide
  rw [h1]
  have hw : walk true { rootEntry := InitFileSystem.rootEntry, IDCount := 1 } [] [(p, true)] =
      (⟨.dir ['/'] 0 [.dir p 2 []], 2⟩, some [0]) := by
    have h2 : (1 + 1) % U64 = 2 := by decide
    simp only [walk, Data, deref_nil, InitFileSystem, Entries, GetEntryIn, List.findIdx?_nil,
      AddDirectoryTo, AddEntryTo, appendAt, cstr_of_noNUL p hp.2.1, h2, if_true,
      List.nil_append, List.length_nil]
  rw [hw]
  rfl

theorem GetEntry_root (fs : FS) : GetEntry fs ['/'] = (fs, some []) := by
  unfold GetEntry
  rw [GetEntryMkdirs_eq_walk, cstr_of_noNUL ['/'] (by
    intro c hc; rw [List.mem_singleton.mp hc]; decide)]
  rfl

theorem GetEntryIn_head (c : DirectoryEntry) (rest : List DirectoryEntry) :
    GetEntryIn (c :: rest) c.Name = some 0 := by
  unfold GetEntryIn
  rw [List.findIdx?_cons]
  simp

theorem GetEntry_dir (p name : List Char) (f : File) (hp : WFString p) (hps : '/' ∉ p) :
    GetEntry ⟨.dir ['/'] 0 [.dir p 2 [.file name 1 f]], 2⟩ ('/' :: p) =
      (⟨.dir ['/'] 0 [.dir p 2 [.file name 1 f]], 2⟩, some [0]) := by
  have hno : ∀ c ∈ '/' :: p, c ≠ NUL := by
    intro c hc
    rcases List.mem_cons.mp hc with h | h
    · rw [h]; decide
    · exact hp.2.1 c h
  unfold GetEntry
  rw [GetEntryMkdirs_eq_walk, cstr_of_noNUL _ hno, tokens_slash, tokens_plain p hps hp.1]
  have hg := GetEntryIn_head (.dir p 2 [.file name 1 f]) []
  simp only [walk, Data, deref_nil, Entries]
  rw [show (DirectoryEntry.dir p 2 [.file name 1 f]).Name = p from rfl] at hg
  rw [hg]
  rfl

theorem GetEntry_file (p name : List Char) (f : File) (hp : WFString p) (hps : '/' ∉ p)
    (hname : ∀ c ∈ name, c ≠ NUL) (hns : '/' ∉ name) (hne : name ≠ []) :
    GetEntry ⟨.dir ['/'] 0 [.dir p 2 [.file name 1 f]], 2⟩ ('/' :: p ++ '/' :: name) =
      (⟨.dir ['/'] 0 [.dir p 2 [.file name 1 f]], 2⟩, some [0, 0]) := by
  have hno : ∀ c ∈ '/' :: p ++ '/' :: name, c ≠ NUL := by
    intro c hc
    rcases List.mem_append.mp hc with h | h
    · rcases List.mem_cons.mp h with h | h
      · rw [h]; decide
      · exact hp.2.1 c h
    · rcases List.mem_cons.mp h with h | h
      · rw [h]; decide
      · exact hname c h
  unfold GetEntry
  rw [GetEntryMkdirs_eq_walk, cstr_of_noNUL _ hno, tokens_two p name hps hp.1 hns hne]
  have hg := GetEntryIn_head (.dir p 2 [.file name 1 f]) []
  rw [show (DirectoryEntry.dir p 2 [.file name 1 f]).Name = p from rfl] at hg
  have hg2 := GetEntryIn_head (.file name 1 f) []
  rw [show (DirectoryEntry.file name 1 f).Name = name from rfl] at hg2
  simp only [walk, Data, deref_nil, Entries]
  rw [hg]
  simp only [List.nil_append]
  have hd : deref (DirectoryEntry.dir ['/'] 0 [.dir p 2 [.file name 1 f]]) [0] =
      some (.dir p 2 [.file name 1 f]) := rfl
  simp only [hd, Entries, IsDirectory]
  rw [hg2]
  rfl

theorem toU64_zero : toU64 0 = 0 := by
  have := toU64_of_range 0 (by omega) (by omega)
  exact_mod_cast this

theorem toInt64_natCast (off : Nat) (hoff : off < 9223372036854775808) :
    toInt64 (((off : Int) + ((0 : Nat) : Int)) % (U64 : Int)) = (off : Int) := by
  unfold toInt64 U64
  have h1 : ((off : Int) + ((0 : Nat) : Int)) % ((18446744073709551616 : Nat) : Int) = off := by
    rw [Nat.cast_zero, Int.add_zero]
    exact Int.emod_eq_of_lt (by omega) (by omega)
  have h2 : (off : Int) % ((18446744073709551616 : Nat) : Int) = off :=
    Int.emod_eq_of_lt (by omega) (by omega)
  rw [h1, h2, if_pos (by omega)]

theorem pread_full (w : Files) (fd : Int) (bytes : List Char) (L off : Nat)
    (hlen : off + L ≤ bytes.length) (hw : w fd = some bytes) :
    pread w fd L (off : Int) = ((L : Int), (bytes.drop off).take L) := by
  unfold pread
  rw [hw]
  simp only
  rw [if_neg (by omega), Int.toNat_ofNat]
  have : ((bytes.drop off).take L).length = L := by
    rw [List.length_take, List.length_drop]
    omega
  rw [this]

theorem read_main_data (vpk : VPK) (w : Files) (bytes buf : List Char) (L off : Nat)
    (hL : L < 2147483648) (hoff : off < 9223372036854775808)
    (hlen : off + L ≤ bytes.length) (hw : w vpk.FD = some bytes) (hfd : vpk.FD ≠ -1)
    (h0 : L ≠ 0) :
    vpk_read.data vpk w ⟨L, 0, 0, 0x7fff, L, off⟩ 0 L 0 buf [] =
      .ok ⟨(L : Int), writeAt buf 0 ((bytes.drop off).take L), [⟨vpk.FD, L, (off : Int)⟩]⟩ := by
  have hcm2 : cmin L L = L := by unfold cmin; rw [if_neg (by omega)]
  have hLm : (L + U64 - 0) % U64 = L := by unfold U64; omega
  have h32 : toInt32 (L : Int) = L := toInt32_of_range _ (by omega) (by omega)
  have h64 : toU64 (L : Int) = L := toU64_natCast L (by omega)
  have hg : GetVPKArchive vpk 0x7fff = some vpk.FD := by
    unfold GetVPKArchive
    rw [if_pos rfl]
  have hpos : toU64 (((0 : Nat) : Int) + (L : Int)) = L := by
    have : ((0 : Nat) : Int) + (L : Int) = (L : Int) := by omega
    rw [this, h64]
  unfold vpk_read.data
  dsimp only
  rw [hLm, if_pos (by omega), hcm2, h32, h64]
  simp only [hg]
  rw [if_neg hfd, toInt64_natCast off hoff, pread_full w vpk.FD bytes L off hlen hw]
  dsimp only
  rw [h32, if_neg (not_not.mpr rfl), hpos, if_neg (not_not.mpr rfl)]
  simp only [Int.sub_zero, Nat.cast_zero, h64, h32, toU64_zero]
  rw [if_neg (by omega)]
  rfl

/-- The read of a file without preload bytes whose data lies in the main archive. -/
theorem read_main (vpk : VPK) (w : Files) (bytes buf : List Char) (size L off : Nat)
    (hL : L < 2147483648) (hoff : off < 9223372036854775808)
    (hlen : off + L ≤ bytes.length) (hw : w vpk.FD = some bytes) (hfd : vpk.FD ≠ -1)
    (hsize : L ≤ size) (hsz : size < U64) :
    ∃ r, vpk_read.file vpk w ⟨L, 0, 0, 0x7fff, L, if L ≠ 0 then off else 0⟩ buf size 0 = .ok r ∧
      r.ret = (L : Int) ∧ r.buf = writeAt buf 0 ((bytes.drop off).take L) := by
  by_cases h0 : L = 0
  · subst h0
    refine ⟨⟨0, buf, []⟩, ?_, rfl, ?_⟩
    · unfold vpk_read.file
      rw [toU64_zero, if_pos (Nat.le_refl 0)]
    · simp [writeAt]
  · rw [if_pos h0]
    have hmod : (0 + size) % U64 = size := by rw [Nat.zero_add]; exact Nat.mod_eq_of_lt hsz
    have hcm : cmin size L = L := by unfold cmin; rw [if_neg (by omega)]
    unfold vpk_read.file
    dsimp only
    rw [toU64_zero, if_neg (by omega), hmod, hcm, if_neg (by omega),
      read_main_data vpk w bytes buf L off hL hoff hlen hw hfd h0]
    exact ⟨_, rfl, rfl, rfl⟩

theorem littleEndian_take4 (bs : List Char) : littleEndian (bs.take 4) < 4294967296 := by
  have h := littleEndian_lt (bs.take 4)
  have hl : (bs.take 4).length ≤ 4 := by
    rw [List.length_take]
    omega
  have hp : 256 ^ (bs.take 4).length ≤ 256 ^ 4 := Nat.pow_le_pow_right (by decide) hl
  have h4 : (256 : Nat) ^ 4 = 4294967296 := by norm_num
  omega

theorem littleEndian_four (bs : List Char) (h : bs.length = 4) : littleEndian bs < 4294967296 := by
  have := littleEndian_take4 bs
  rw [List.take_of_length_le (by omega)] at this
  exact this

/-- The `File` stored for a record without preload bytes whose data lies in the main
archive. -/
theorem file_main (vpk : VPK) (d : VPKDirectoryEntry) (off T : Nat)
    (hv : vpk.DataOffset = 12 + T) (hT : T < 4294967296) (ho : d.EntryOffset < 4294967296)
    (hpre : d.PreloadBytes = 0) (hidx : d.ArchiveIndex = 0x7fff)
    (hL : d.EntryLength < 2147483648) :
    AddVPKFile.file vpk d off =
      ⟨d.EntryLength, 0, 0, 0x7fff, d.EntryLength,
        if d.EntryLength ≠ 0 then 12 + T + d.EntryOffset else 0⟩ := by
  unfold AddVPKFile.file
  rw [hpre, hidx, hv, if_neg (by omega), if_pos rfl, Nat.zero_add]
  have h1 : d.EntryLength % U32 = d.EntryLength := Nat.mod_eq_of_lt (by unfold U32; omega)
  have h2 : (12 + T + d.EntryOffset) % U64 = 12 + T + d.EntryOffset :=
    Nat.mod_eq_of_lt (by unfold U64; omega)
  rw [h1, h2]

theorem oneLeaf_wf (e p n record : List Char) (he : WFString e) (hp : WFString p)
    (hn : WFString n) (hrec : record.length = 18)
    (hpre : (decodeRecord record).PreloadBytes = 0) : ∀ g ∈ oneLeaf e p n record, g.WF := by
  intro g hg
  simp only [oneLeaf, List.mem_singleton] at hg
  subst hg
  refine ⟨he, ?_⟩
  intro q hq
  simp only [List.mem_singleton] at hq
  subst hq
  refine ⟨hp, ?_⟩
  intro l hl
  simp only [List.mem_singleton] at hl
  subst hl
  exact ⟨hn, hrec, by rw [hpre]; rfl⟩

/-- The parser on a directory section with one leaf of plain names. -/
theorem ReadDirectory_oneLeaf (vpk : VPK) (e p n record data : List Char)
    (he : WFString e) (hp : WFString p) (hn : WFString n) (hps : '/' ∉ p)
    (hem : e ≠ [' ']) (hpm : p ≠ [' ']) (hnm : n ≠ [' '])
    (hrec : record.length = 18) (hpre : (decodeRecord record).PreloadBytes = 0) :
    ∃ off fd, ReadDirectory InitFileSystem vpk ⟨12, encExts (oneLeaf e p n record) ++ data⟩ =
      .ok (⟨.dir ['/'] 0 [.dir p 2 [.file (n ++ '.' :: e) 1
          (AddVPKFile.file vpk (decodeRecord record) off)]], 2⟩,
        { vpk with ArchiveFDCount := AddVPKFile.count vpk (decodeRecord record) }, fd) := by
  have hwf := oneLeaf_wf e p n record he hp hn hrec hpre
  unfold ReadDirectory
  rw [extensions_spec (oneLeaf e p n record) hwf _ InitFileSystem vpk
    ⟨12, encExts (oneLeaf e p n record) ++ data⟩ data rfl (by
      show _ ≤ (encExts (oneLeaf e p n record) ++ data).length + 1
      rw [List.length_append]
      omega)]
  have hcalls : extCalls 12 (oneLeaf e p n record) =
      [⟨p, n, e, decodeRecord record, 12 + (e.length + 1) + (p.length + 1) + (n.length + 1) + 18⟩] :=
    rfl
  refine ⟨12 + (e.length + 1) + (p.length + 1) + (n.length + 1) + 18,
    ⟨12 + (encExts (oneLeaf e p n record)).length, data⟩, ?_⟩
  dsimp only
  rw [hcalls, runCalls_cons]
  dsimp only
  rw [AddVPKFile_plain vpk e p n _ _ he hp hn hps hem hpm hnm]
  rfl

theorem readdir_root (p name : List Char) (f : File) :
    vpk_readdir ⟨.dir ['/'] 0 [.dir p 2 [.file name 1 f]], 2⟩ ['/'] =
      .ok (0, [⟨['.'], none⟩, ⟨['.', '.'], none⟩, ⟨p, some (2, 555 ||| S_IFDIR)⟩]) := by
  unfold vpk_readdir
  rw [GetEntry_root]
  rfl

theorem readdir_dir (p name : List Char) (f : File) (hp : WFString p) (hps : '/' ∉ p) :
    vpk_readdir ⟨.dir ['/'] 0 [.dir p 2 [.file name 1 f]], 2⟩ ('/' :: p) =
      .ok (0, [⟨['.'], none⟩, ⟨['.', '.'], none⟩, ⟨name, some (1, 555 ||| S_IFREG)⟩]) := by
  unfold vpk_readdir
  rw [GetEntry_dir p name f hp hps]
  rfl

/-- C16 (as amended): for an archive with a version-1 header and a directory section holding
one leaf whose extension `e`, path `p` and filename `n` are not empty, hold no zero byte and
no `'/'`, have at most 512 bytes and are not the single space, with a record with
`PreloadBytes = 0`, `ArchiveIndex = 0x7fff` and `EntryLength` below 2^31, the archive
holding the bytes the record names: the start of the program loads a tree in which the
listing of `/` contains `p`, the listing of `/p` contains `n.e`, and `vpk_read` of
`/p/n.e` at offset 0 with a size of at least `EntryLength` returns `EntryLength` and
stores the bytes of the archive from `12 + TreeLength + EntryOffset` on. -/
theorem C16_one_leaf_archive (e p n record sig ver tl data buf : List Char) (size : Nat)
    (vpk : VPK) (w : Files)
    (he : WFString e) (hp : WFString p) (hn : WFString n)
    (hes : '/' ∉ e) (hps : '/' ∉ p) (hns : '/' ∉ n)
    (hem : e ≠ [' ']) (hpm : p ≠ [' ']) (hnm : n ≠ [' '])
    (hsig : sig.length = 4) (hsigv : littleEndian sig = VPKSig)
    (hver : ver.length = 4) (hverv : littleEndian ver = 1) (htl : tl.length = 4)
    (hrec : record.length = 18) (hpre : (decodeRecord record).PreloadBytes = 0)
    (hidx : (decodeRecord record).ArchiveIndex = 0x7fff)
    (hL : (decodeRecord record).EntryLength < 2147483648)
    (hfd : vpk.FD ≠ -1)
    (hw : w vpk.FD = some (sig ++ ver ++ tl ++ encExts (oneLeaf e p n record) ++ data))
    (hlen : 12 + littleEndian tl + (decodeRecord record).EntryOffset +
        (decodeRecord record).EntryLength ≤
      (sig ++ ver ++ tl ++ encExts (oneLeaf e p n record) ++ data).length)
    (hsize : (decodeRecord record).EntryLength ≤ size) (hsz : size < U64) :
    ∃ fs vpk1 fd,
      main.load vpk ⟨0, sig ++ ver ++ tl ++ encExts (oneLeaf e p n record) ++ data⟩ =
        .loaded fs vpk1 fd ∧
      (∃ calls, vpk_readdir fs ['/'] = .ok (0, calls) ∧ p ∈ calls.map FillerCall.name) ∧
      (∃ calls, vpk_readdir fs ('/' :: p) = .ok (0, calls) ∧
        (n ++ '.' :: e) ∈ calls.map FillerCall.name) ∧
      ∃ r, vpk_read fs vpk1 w ('/' :: p ++ '/' :: (n ++ '.' :: e)) buf size 0 = .ok r ∧
        r.ret = ((decodeRecord record).EntryLength : Int) ∧
        r.buf = writeAt buf 0
          (((sig ++ ver ++ tl ++ encExts (oneLeaf e p n record) ++ data).drop
            (12 + littleEndian tl + (decodeRecord record).EntryOffset)).take
              (decodeRecord record).EntryLength) := by
  have hT : littleEndian tl < 4294967296 := littleEndian_four tl htl
  have ho : (decodeRecord record).EntryOffset < 4294967296 := littleEndian_take4 _
  have hname := name_noNUL hn he
  have hnames := name_noSlash hns hes
  have hnamene : n ++ '.' :: e ≠ [] := by simp
  obtain ⟨off, fd, hread⟩ := ReadDirectory_oneLeaf
    { vpk with DataOffset := headerDataOffset 1 (littleEndian tl) } e p n record data
    he hp hn hps hem hpm hnm hrec hpre
  have hv : headerDataOffset 1 (littleEndian tl) = 12 + littleEndian tl := by
    rw [headerDataOffset_eq 1 _ (by unfold U32; omega), if_neg (by decide)]
  rw [file_main _ (decodeRecord record) off (littleEndian tl) hv hT ho hpre hidx hL] at hread
  refine ⟨⟨.dir ['/'] 0 [.dir p 2 [.file (n ++ '.' :: e) 1
      ⟨(decodeRecord record).EntryLength, 0, 0, 0x7fff, (decodeRecord record).EntryLength,
        if (decodeRecord record).EntryLength ≠ 0 then
          12 + littleEndian tl + (decodeRecord record).EntryOffset else 0⟩]], 2⟩,
    { ({ vpk with DataOffset := headerDataOffset 1 (littleEndian tl) } : VPK) with
      ArchiveFDCount := AddVPKFile.count
        { vpk with DataOffset := headerDataOffset 1 (littleEndian tl) } (decodeRecord record) },
    fd, ?_, ?_, ?_, ?_⟩
  · rw [List.append_assoc (sig ++ ver ++ tl), load_v1 vpk sig ver tl _ hsig hver htl hsigv hverv,
      hread]
  · exact ⟨_, readdir_root p _ _, by simp⟩
  · exact ⟨_, readdir_dir p _ _ hp hps, by simp⟩
  · unfold vpk_read
    rw [GetEntry_file p _ _ hp hps hname hnames hnamene]
    show ∃ r, vpk_read.file _ w _ buf size 0 = .ok r ∧ _
    exact read_main _ w _ buf size _ _ hL (by omega) hlen hw hfd hsize hsz

theorem C16_one_leaf_archive_witness :
    ∃ fs vpk1 fd, main.load vpk0 ⟨0, exampleArchive⟩ = .loaded fs vpk1 fd ∧
      (∃ calls, vpk_readdir fs "/".toList = .ok (0, calls) ∧
        "docs".toList ∈ calls.map FillerCall.name) ∧
      (∃ calls, vpk_readdir fs "/docs".toList = .ok (0, calls) ∧
        "readme.txt".toList ∈ calls.map FillerCall.name) ∧
      ∃ r, vpk_read fs vpk1 (mainOnly exampleArchive) "/docs/readme.txt".toList
          (List.replicate 12 '-') 100 0 = .ok r ∧
        r.ret = 11 ∧ r.buf = "hello world-".toList :=
  C16_one_leaf_archive "txt".toList "docs".toList "readme".toList (recordMain 11) sigBytes
    version1 length37 "hello world".toList (List.replicate 12 '-') 100 vpk0
    (mainOnly exampleArchive)
    ⟨by decide, by decide, by decide⟩ ⟨by decide, by decide, by decide⟩
    ⟨by decide, by decide, by decide⟩ (by decide) (by decide) (by decide)
    (by decide) (by decide) (by decide) (by decide) (by decide) (by decide) (by decide)
    (by decide) (by decide) (by decide) (by decide) (by decide) (by decide) rfl (by decide)
    (by decide) (by decide)

/-- C16 (counterexample): for the archive with the leaf `txt`, `a/b`, `readme`, the tree
loaded holds the directory `a` with the directory `b` in it, and the listing of `/` is
`.`, `..`, `a`: it does not contain the path `a/b`. -/
theorem C16_path_with_slash :
    main.load vpk0 ⟨0, archiveAB⟩ = .loaded fsAB ⟨3, 0, [], 48⟩ ⟨48, "hello world".toList⟩ ∧
    vpk_readdir fsAB "/".toList =
      .ok (0, [⟨".".toList, none⟩, ⟨"..".toList, none⟩, ⟨"a".toList, some (2, 16939)⟩]) ∧
    "a/b".toList ∉ [".".toList, "..".toList, "a".toList] :=
  ⟨rfl, rfl, by decide⟩

theorem gsThroughFile_wf : ∀ g ∈ gsThroughFile, g.WF := by
  intro g hg
  simp only [gsThroughFile, List.mem_singleton] at hg
  subst hg
  refine ⟨⟨by decide, by decide, by decide⟩, ?_⟩
  intro p hp
  simp only [List.mem_cons, List.mem_singleton, List.not_mem_nil, or_false] at hp
  rcases hp with hp | hp | hp <;> subst hp
  · refine ⟨⟨by decide, by decide, by decide⟩, ?_⟩
    intro l hl
    simp only [List.mem_singleton] at hl
    subst hl
    exact ⟨⟨by decide, by decide, by decide⟩, by decide, by decide⟩
  · refine ⟨⟨by decide, by decide, by decide⟩, ?_⟩
    intro l hl
    simp only [List.mem_singleton] at hl
    subst hl
    exact ⟨⟨by decide, by decide, by decide⟩, by decide, by decide⟩
  · refine ⟨⟨by decide, by decide, by decide⟩, ?_⟩
    intro l hl
    simp only [List.mem_singleton] at hl
    subst hl
    exact ⟨⟨by decide, by decide, by decide⟩, by decide, by decide⟩

/-- C20 (failing input): the section `gsThroughFile` is a well-formed encoding of three
leaves, `f` in `d`, `g` in `d/f.t` and `h` in `e`, all with the extension `t`.  The call of
`AddVPKFile` for the first leaf returns and stores the file `/d/f.t`; the call for the
second leaf takes the path `d/f.t`, which now resolves to that file, and `AddEntry` hands
the `File` to `AddEntryTo` as a `Directory`: `ReadDirectory` stops there, does not make the
call for the third leaf and does not return with the cursor at the end of the section. -/
theorem C20_section_through_a_file :
    (∀ g ∈ gsThroughFile, g.WF) ∧
    (extCalls 12 gsThroughFile).map (fun c => (c.path, c.fname, c.extension, c.off)) =
      [("d".toList, "f".toList, "t".toList, 36), ("d/f.t".toList, "g".toList, "t".toList, 63),
        ("e".toList, "h".toList, "t".toList, 86)] ∧
    AddVPKFile InitFileSystem vpk40 "d".toList "f".toList "t".toList
        (decodeRecord (recordMain 11)) 36 = .ok (fsFirstLeaf, vpk40) ∧
    AddVPKFile fsFirstLeaf vpk40 "d/f.t".toList "g".toList "t".toList
        (decodeRecord (recordMain 11)) 63 =
      .error (Fault.fileAsDirectory, ⟨fsFirstLeaf.rootEntry, 3⟩) ∧
    ReadDirectory InitFileSystem vpk40 ⟨12, encExts gsThroughFile ++ "hello world".toList⟩ =
      .error (ParseStop.fault Fault.fileAsDirectory ⟨fsFirstLeaf.rootEntry, 3⟩) :=
  ⟨gsThroughFile_wf, by decide, rfl, rfl, rfl⟩

end VpkFuse
